import Mathlib

/-!
Verification of the release-pipeline scripts (`publish-to-verdaccio.ts`,
`update-version.ts`, `update-version-files.ts`, `publish-single.ts`).

The model is a shallow embedding: the orchestrator's step executor, the fixed
publish order, the version validation and the stage sequence are translated
from `publish-to-verdaccio.ts`; the manifest rewrite loop is translated from
`update-version.ts`, with `JSON.parse`/`JSON.stringify(·, null, '\t')`
modelled by an executable parser/printer pair over a JSON value type (numbers
modelled as exact integers; IEEE-754 fraction/exponent literals are outside
the model).
-/

namespace Publish

/-! ### JavaScript `String.prototype.includes`, at the character level -/

/-- `hasPre pat s`: `pat` is a prefix of `s` (character lists). -/
def hasPre : List Char → List Char → Bool
  | [], _ => true
  | _ :: _, [] => false
  | a :: as, b :: bs => a == b && hasPre as bs

/-- `occursIn pat s`: `pat` occurs contiguously somewhere in `s`. -/
def occursIn (pat : List Char) : List Char → Bool
  | [] => hasPre pat []
  | c :: cs => hasPre pat (c :: cs) || occursIn pat cs

/-- JavaScript `s.includes(pat)`, as used by `exec` for the build tolerance. -/
def jsIncludes (s pat : String) : Bool := occursIn pat.toList s.toList

/-! ### The step executor (`exec` in `publish-to-verdaccio.ts`) -/

/-- The part of a `child_process.spawnSync` result that `exec` inspects:
`error` is set when the child could not be started; `status` is the exit code,
`none` modelling the JavaScript `null` of a child that terminated without an
exit status (killed by a signal). -/
structure SpawnResult where
  error : Option String
  status : Option Int
deriving DecidableEq

/-- How `exec` reacts to a step's `SpawnResult`: `fatal` is the
`error(...)`/`process.exit(1)` path, `warning` is the "Build had warnings,
continuing..." path, `success` is a normal return. -/
inductive ExecOutcome where
  | success
  | warning
  | fatal
deriving DecidableEq

/-- The classification `exec` performs, in source order: a spawn `error` is
fatal; a status that is neither `0` nor `null` is fatal unless the step's
description contains `"Build"`, in which case it is downgraded to a warning;
everything else (status `0`, or `null` status without a spawn error) returns
normally. -/
def execClassify (description : String) (r : SpawnResult) : ExecOutcome :=
  match r.error with
  | some _ => .fatal
  | none =>
    match r.status with
    | some s => if s ≠ 0 then (if jsIncludes description "Build" then .warning else .fatal) else .success
    | none => .success

/-! ### The fixed pipeline of `main` -/

/-- The hand-curated list `publishOrder` from `publishPackages`, verbatim. -/
def publishOrder : List String :=
  ["bundler",
   "cli",
   "compositor-darwin-arm64",
   "compositor-darwin-x64",
   "compositor-linux-arm64-gnu",
   "compositor-linux-arm64-musl",
   "compositor-linux-x64-gnu",
   "compositor-linux-x64-musl",
   "compositor-win32-x64-msvc",
   "lambda",
   "lambda-client",
   "licensing",
   "media-parser",
   "media-utils",
   "player",
   "renderer",
   "serverless",
   "serverless-client",
   "streaming",
   "studio",
   "studio-server",
   "studio-shared",
   "web-renderer",
   "webcodecs",
   "zod-types",
   "core",
   "tailwind-v4",
   "enable-scss",
   "skia"]

/-- The distinct `exec` call sites of the pipeline, one constructor per kind of
step invocation that `main`, `publishPackages` and `tagPackagesAsLatest` make. -/
inductive Invocation where
  | bumpVersion (version : String)
  | updateVersionFiles (version : String)
  | installDeps
  | build
  | publish (pkg : String)
  | tagLatest (version : String) (pkg : String)
deriving DecidableEq

/-- The command, argument list and description handed to `exec`. -/
structure Step where
  command : String
  args : List String
  description : String
deriving DecidableEq

/-- The registry naming rule of `tagPackagesAsLatest`: the `core` identifier
maps to the un-scoped name `remotion`; every other identifier is scoped. -/
def packageName (pkg : String) : String :=
  if pkg = "core" then "remotion" else "@remotion/" ++ pkg

/-- The concrete `exec` arguments of each invocation, read off the call sites
in `publish-to-verdaccio.ts`. -/
def stepOf : Invocation → Step
  | .bumpVersion v => ⟨"bun", ["update-version.ts", v], "Bump version to " ++ v⟩
  | .updateVersionFiles v =>
      ⟨"bun", ["update-version-files.ts", v], "Update version.ts files to " ++ v⟩
  | .installDeps => ⟨"bun", ["install"], "Install dependencies"⟩
  | .build => ⟨"bun", ["run", "build"], "Build all packages"⟩
  | .publish pkg => ⟨"bun", ["publish-single.ts", pkg], "Publishing @remotion/" ++ pkg⟩
  | .tagLatest v pkg =>
      ⟨"npm",
       ["dist-tag", "add", packageName pkg ++ "@" ++ v, "latest", "--registry",
        "http://localhost:4873/"],
       "Tagging " ++ packageName pkg ++ "@" ++ v ++ " as latest"⟩

/-- The per-package publish loop of `publishPackages`. -/
def publishInvocations : List Invocation := publishOrder.map Invocation.publish

/-- The list `publishPackages` returns to `main` (the function ends with
`return publishOrder`). -/
def publishedPackages : List String := publishOrder

/-- The per-package loop of `tagPackagesAsLatest`, over the list it receives. -/
def tagInvocations (version : String) (pkgs : List String) : List Invocation :=
  pkgs.map (Invocation.tagLatest version)

/-- The full sequence of `exec` invocations `main` makes once the version is
accepted: bump, version.ts rewrite, install, build, one publish per package in
`publishOrder`, then one tag per package in the list `publishPackages`
returned. -/
def pipelineInvocations (version : String) : List Invocation :=
  [.bumpVersion version, .updateVersionFiles version, .installDeps, .build]
    ++ publishInvocations ++ tagInvocations version publishedPackages

/-- The outcome `exec` computes for one invocation, given the environment's
`spawnSync` behaviour. -/
def classify (oracle : Invocation → SpawnResult) (inv : Invocation) : ExecOutcome :=
  execClassify (stepOf inv).description (oracle inv)

/-- Sequential execution with the fail-fast behaviour of `error` (which calls
`process.exit(1)`): the trace records each invocation with its outcome, and a
fatal outcome ends the run (`false` = the process exited mid-pipeline). -/
def runSteps (oracle : Invocation → SpawnResult) :
    List Invocation → List (Invocation × ExecOutcome) × Bool
  | [] => ([], true)
  | inv :: rest =>
    let r := classify oracle inv
    if r = .fatal then ([(inv, r)], false)
    else
      let t := runSteps oracle rest
      ((inv, r) :: t.1, t.2)

/-- The version gate of `main`: the regular expression `/^4\.0\.\d+$/`,
transcribed onto the character list (`\d` is `[0-9]`, exactly `Char.isDigit`). -/
def validVersion (v : String) : Bool :=
  match v.toList with
  | '4' :: '.' :: '0' :: '.' :: rest => !rest.isEmpty && rest.all Char.isDigit
  | _ => false

/-- A whole run of `main`: trace of step invocations and the process exit
code. -/
structure PipelineRun where
  trace : List (Invocation × ExecOutcome)
  exitCode : Nat
deriving DecidableEq

/-- `main`: a missing or empty version argument is a usage error (`error`
exits with code 1 before any step); a version failing the pattern is a
validation error (again exit 1, no step run); otherwise the fixed pipeline
runs, exiting 0 on completion and 1 on the first fatal step. -/
def mainRun (argv2 : Option String) (oracle : Invocation → SpawnResult) : PipelineRun :=
  match argv2 with
  | none => ⟨[], 1⟩
  | some v =>
    if v = "" then ⟨[], 1⟩
    else if validVersion v then
      let r := runSteps oracle (pipelineInvocations v)
      ⟨r.1, if r.2 then 0 else 1⟩
    else ⟨[], 1⟩

/-- An environment in which every step exits 0. -/
def allOk : Invocation → SpawnResult := fun _ => ⟨none, some 0⟩

example : validVersion "4.0.428" = true := by decide
example : validVersion "4.1.0" = false := by decide
example : validVersion "4.0." = false := by decide
example : jsIncludes "Build all packages" "Build" = true := by decide
example : jsIncludes "Install dependencies" "Build" = false := by decide
example : (mainRun (some "4.1.0") allOk) = ⟨[], 1⟩ := by decide

/-! ### Basic facts about `runSteps` -/

theorem runSteps_cons (oracle : Invocation → SpawnResult) (inv : Invocation)
    (rest : List Invocation) :
    runSteps oracle (inv :: rest)
      = if classify oracle inv = .fatal then ([(inv, classify oracle inv)], false)
        else ((inv, classify oracle inv) :: (runSteps oracle rest).1, (runSteps oracle rest).2) :=
  rfl

/-- The executed invocations are an initial segment of the invocation list. -/
theorem runSteps_prefix (oracle : Invocation → SpawnResult) :
    ∀ L : List Invocation, ((runSteps oracle L).1.map Prod.fst) <+: L
  | [] => by simp [runSteps]
  | inv :: rest => by
      rw [runSteps_cons]
      split
      · exact ⟨rest, by simp⟩
      · obtain ⟨t, ht⟩ := runSteps_prefix oracle rest
        exact ⟨t, by simpa using ht⟩

/-- Each trace entry records the invocation at its position, with its
classification. -/
theorem runSteps_entry (oracle : Invocation → SpawnResult) :
    ∀ (L : List Invocation) (j : Nat) (e : Invocation × ExecOutcome),
      (runSteps oracle L).1[j]? = some e →
      L[j]? = some e.1 ∧ e.2 = classify oracle e.1
  | [], j, e => by simp [runSteps]
  | inv :: rest, j, e => by
      rw [runSteps_cons]
      split
      · match j with
        | 0 => intro h; simp at h; subst h; simp_all
        | j + 1 => intro h; simp at h
      · match j with
        | 0 => intro h; simp at h; subst h; simp
        | j + 1 =>
            intro h
            simp only [List.getElem?_cons_succ] at h ⊢
            exact runSteps_entry oracle rest j e h

/-- A fatal entry is the last entry of the trace, and the run did not
complete. -/
theorem runSteps_fatal_tail (oracle : Invocation → SpawnResult) :
    ∀ (L : List Invocation) (j : Nat) (e : Invocation × ExecOutcome),
      (runSteps oracle L).1[j]? = some e → e.2 = .fatal →
      (runSteps oracle L).1.length = j + 1 ∧ (runSteps oracle L).2 = false
  | [], j, e => by simp [runSteps]
  | inv :: rest, j, e => by
      rw [runSteps_cons]
      split
      · match j with
        | 0 => intro h _; simp at h ⊢
        | j + 1 => intro h; simp at h
      · match j with
        | 0 =>
            intro h hf
            simp at h
            subst h
            simp at hf
            simp_all
        | j + 1 =>
            intro h hf
            simp only [List.getElem?_cons_succ] at h
            have := runSteps_fatal_tail oracle rest j e h hf
            simp [this.1, this.2]

/-- Running a list whose first segment is all non-fatal executes the segment
entirely and continues with the remainder. -/
theorem runSteps_append_ok (oracle : Invocation → SpawnResult) :
    ∀ L₁ L₂ : List Invocation, (∀ inv ∈ L₁, classify oracle inv ≠ .fatal) →
      runSteps oracle (L₁ ++ L₂)
        = ((L₁.map fun inv => (inv, classify oracle inv)) ++ (runSteps oracle L₂).1,
           (runSteps oracle L₂).2)
  | [], L₂, _ => by simp
  | inv :: rest, L₂, h => by
      have h1 : classify oracle inv ≠ .fatal := h inv (by simp)
      have h2 : ∀ i ∈ rest, classify oracle i ≠ .fatal := fun i hi => h i (by simp [hi])
      simp only [List.cons_append, runSteps_cons, if_neg h1,
        runSteps_append_ok oracle rest L₂ h2, List.map_cons]

/-- A completed run (`true`) executed every invocation, in order. -/
theorem runSteps_complete (oracle : Invocation → SpawnResult) :
    ∀ L : List Invocation, (runSteps oracle L).2 = true →
      (runSteps oracle L).1 = L.map fun inv => (inv, classify oracle inv)
  | [], _ => by simp [runSteps]
  | inv :: rest, h => by
      by_cases hc : classify oracle inv = .fatal
      · rw [runSteps_cons, if_pos hc] at h
        simp at h
      · rw [runSteps_cons, if_neg hc] at h ⊢
        simpa using runSteps_complete oracle rest (by simpa using h)

/-! ### Positions in the fixed pipeline -/

theorem publishOrder_length : publishOrder.length = 29 := rfl

theorem publishOrder_nodup : publishOrder.Nodup := by decide

theorem pipelineInvocations_length (v : String) : (pipelineInvocations v).length = 62 := rfl

/-- Positions `4 + i` (for `i < 29`) of the pipeline hold the publish steps. -/
theorem pipe_getElem_pub (v : String) {i : Nat} (h : i < 29) :
    (pipelineInvocations v)[4 + i]? = (publishOrder[i]?).map Invocation.publish := by
  show (([Invocation.bumpVersion v, .updateVersionFiles v, .installDeps, .build]
      ++ publishInvocations) ++ tagInvocations v publishedPackages)[4 + i]? = _
  rw [List.getElem?_append_left (by simp [publishInvocations, publishOrder]; omega),
      List.getElem?_append_right (by simp)]
  simp [publishInvocations]

/-- Positions `33 + i` (for `i < 29`) of the pipeline hold the tag steps. -/
theorem pipe_getElem_tag (v : String) {i : Nat} (_h : i < 29) :
    (pipelineInvocations v)[33 + i]? = (publishOrder[i]?).map (Invocation.tagLatest v) := by
  show (([Invocation.bumpVersion v, .updateVersionFiles v, .installDeps, .build]
      ++ publishInvocations) ++ tagInvocations v publishedPackages)[33 + i]? = _
  rw [List.getElem?_append_right
        (by simp [publishInvocations, publishOrder_length])]
  simp [publishInvocations, tagInvocations, publishedPackages, publishOrder_length]

/-- A publish invocation occurs in the pipeline only at position `4 + i`,
carrying the package at index `i` of `publishOrder`. -/
theorem pipe_pub_pos (v : String) {k : Nat} {p : String}
    (h : (pipelineInvocations v)[k]? = some (.publish p)) :
    ∃ i, k = 4 + i ∧ i < 29 ∧ publishOrder[i]? = some p := by
  match k with
  | 0 => exact absurd h (by simp [pipelineInvocations])
  | 1 => exact absurd h (by simp [pipelineInvocations])
  | 2 => exact absurd h (by simp [pipelineInvocations])
  | 3 => exact absurd h (by simp [pipelineInvocations])
  | k + 4 =>
      by_cases hk : k < 29
      · refine ⟨k, by omega, hk, ?_⟩
        rw [show k + 4 = 4 + k by omega, pipe_getElem_pub v hk] at h
        rcases Option.map_eq_some'.mp h with ⟨a, ha, hpa⟩
        cases hpa
        exact ha
      · by_cases hk2 : k < 58
        · rw [show k + 4 = 33 + (k - 29) by omega, pipe_getElem_tag v (by omega)] at h
          rcases Option.map_eq_some'.mp h with ⟨a, _, hpa⟩
          cases hpa
        · rw [List.getElem?_eq_none (by rw [pipelineInvocations_length]; omega)] at h
          cases h

/-- A tag invocation occurs in the pipeline only at position `33 + i`, tagging
the package at index `i` of `publishOrder` at the pipeline's version. -/
theorem pipe_tag_pos (v : String) {k : Nat} {w p : String}
    (h : (pipelineInvocations v)[k]? = some (.tagLatest w p)) :
    ∃ i, k = 33 + i ∧ i < 29 ∧ publishOrder[i]? = some p ∧ w = v := by
  match k with
  | 0 => exact absurd h (by simp [pipelineInvocations])
  | 1 => exact absurd h (by simp [pipelineInvocations])
  | 2 => exact absurd h (by simp [pipelineInvocations])
  | 3 => exact absurd h (by simp [pipelineInvocations])
  | k + 4 =>
      by_cases hk : k < 29
      · rw [show k + 4 = 4 + k by omega, pipe_getElem_pub v hk] at h
        rcases Option.map_eq_some'.mp h with ⟨a, _, hpa⟩
        cases hpa
      · by_cases hk2 : k < 58
        · refine ⟨k - 29, by omega, by omega, ?_⟩
          rw [show k + 4 = 33 + (k - 29) by omega, pipe_getElem_tag v (by omega)] at h
          rcases Option.map_eq_some'.mp h with ⟨a, ha, hpa⟩
          cases hpa
          exact ⟨ha, rfl⟩
        · rw [List.getElem?_eq_none (by rw [pipelineInvocations_length]; omega)] at h
          cases h

/-! ### Which descriptions contain `"Build"` -/

theorem str_toList_append (s t : String) : (s ++ t).toList = s.toList ++ t.toList := rfl

/-- A pattern headed by `h` cannot occur in a list avoiding `h`. -/
theorem occursIn_false {h : Char} (pat : List Char) :
    ∀ s : List Char, (∀ c ∈ s, c ≠ h) → occursIn (h :: pat) s = false
  | [], _ => rfl
  | a :: s', hns => by
      have ha : (h == a) = false := by
        simp only [beq_eq_false_iff_ne]
        exact fun e => hns a (by simp) e.symm
      simp [occursIn, hasPre, ha,
        occursIn_false pat s' (fun c hc => hns c (by simp [hc]))]

/-- `"Build"` does not occur in a list of the form `'B' :: 'u' :: 'm' :: t`
when `t` avoids `'B'` (the `Bump version to …` description). -/
theorem occursIn_bump {t : List Char} (hn : ∀ c ∈ t, c ≠ 'B') :
    occursIn ['B', 'u', 'i', 'l', 'd'] ('B' :: 'u' :: 'm' :: t) = false := by
  have h2 : occursIn ['B', 'u', 'i', 'l', 'd'] ('u' :: 'm' :: t) = false :=
    occursIn_false _ _ (by
      intro c hc
      rcases List.mem_cons.mp hc with rfl | hc
      · decide
      rcases List.mem_cons.mp hc with rfl | hc
      · decide
      · exact hn c hc)
  show (hasPre ['B', 'u', 'i', 'l', 'd'] ('B' :: 'u' :: 'm' :: t)
      || occursIn ['B', 'u', 'i', 'l', 'd'] ('u' :: 'm' :: t)) = false
  rw [h2]
  simp [hasPre]

/-- Every character of a validated version string is a digit or a dot. -/
theorem validVersion_chars {v : String} (hv : validVersion v = true) :
    ∀ c ∈ v.toList, c.isDigit = true ∨ c = '.' := by
  intro c hc
  unfold validVersion at hv
  split at hv
  · next rest heq =>
      rw [heq] at hc
      simp only [Bool.and_eq_true] at hv
      rcases List.mem_cons.mp hc with rfl | hc
      · left; decide
      rcases List.mem_cons.mp hc with rfl | hc
      · right; rfl
      rcases List.mem_cons.mp hc with rfl | hc
      · left; decide
      rcases List.mem_cons.mp hc with rfl | hc
      · right; rfl
      · exact Or.inl (List.all_eq_true.mp hv.2 c hc)
  · cases hv

/-- No character of a validated version string is `'B'`. -/
theorem validVersion_no_B {v : String} (hv : validVersion v = true) :
    ∀ c ∈ v.toList, c ≠ 'B' := by
  intro c hc
  rcases validVersion_chars hv c hc with hd | rfl
  · intro he; rw [he] at hd; exact absurd hd (by decide)
  · decide

/-- No package identifier of the publish order contains `'B'`. -/
theorem publishOrder_no_B :
    ∀ pkg ∈ publishOrder, ∀ c ∈ pkg.toList, c ≠ 'B' := by decide

/-- No derived registry name of a listed package contains `'B'`. -/
theorem packageName_no_B :
    ∀ pkg ∈ publishOrder, ∀ c ∈ (packageName pkg).toList, c ≠ 'B' := by decide

/-- The build step is the only pipeline invocation whose description contains
`"Build"`: every other description of a run at a validated version fails the
`description.includes("Build")` test of `exec`. -/
theorem nonbuild_desc {v : String} (hv : validVersion v = true) :
    ∀ inv ∈ pipelineInvocations v, inv ≠ .build →
      jsIncludes (stepOf inv).description "Build" = false := by
  intro inv hmem hne
  have hv' := validVersion_no_B hv
  have hexp : inv = .bumpVersion v ∨ inv = .updateVersionFiles v ∨ inv = .installDeps ∨
      inv = .build ∨ (∃ pkg ∈ publishOrder, inv = .publish pkg) ∨
      (∃ pkg ∈ publishOrder, inv = .tagLatest v pkg) := by
    simpa [pipelineInvocations, publishInvocations, tagInvocations, publishedPackages,
      List.mem_append, List.mem_map, or_assoc, eq_comm] using hmem
  rcases hexp with rfl | rfl | rfl | rfl | ⟨pkg, hpkg, rfl⟩ | ⟨pkg, hpkg, rfl⟩
  · show occursIn "Build".toList ("Bump version to " ++ v).toList = false
    rw [str_toList_append,
        show "Bump version to ".toList = 'B' :: 'u' :: 'm' :: "p version to ".toList from rfl]
    exact occursIn_bump (by
      intro c hc
      rcases List.mem_append.mp hc with hc | hc
      · exact (by decide : ∀ c ∈ "p version to ".toList, c ≠ 'B') c hc
      · exact hv' c hc)
  · show occursIn "Build".toList ("Update version.ts files to " ++ v).toList = false
    rw [str_toList_append]
    exact occursIn_false _ _ (by
      intro c hc
      rcases List.mem_append.mp hc with hc | hc
      · exact (by decide : ∀ c ∈ "Update version.ts files to ".toList, c ≠ 'B') c hc
      · exact hv' c hc)
  · decide
  · exact absurd rfl hne
  · show occursIn "Build".toList ("Publishing @remotion/" ++ pkg).toList = false
    rw [str_toList_append]
    exact occursIn_false _ _ (by
      intro c hc
      rcases List.mem_append.mp hc with hc | hc
      · exact (by decide : ∀ c ∈ "Publishing @remotion/".toList, c ≠ 'B') c hc
      · exact publishOrder_no_B pkg hpkg c hc)
  · show occursIn "Build".toList
      ("Tagging " ++ packageName pkg ++ "@" ++ v ++ " as latest").toList = false
    rw [show ("Tagging " ++ packageName pkg ++ "@" ++ v ++ " as latest").toList
          = "Tagging ".toList ++ (packageName pkg).toList ++ "@".toList ++ v.toList
            ++ " as latest".toList from rfl]
    exact occursIn_false _ _ (by
      intro c hc
      rcases List.mem_append.mp hc with hc | hc
      · rcases List.mem_append.mp hc with hc | hc
        · rcases List.mem_append.mp hc with hc | hc
          · rcases List.mem_append.mp hc with hc | hc
            · exact (by decide : ∀ c ∈ "Tagging ".toList, c ≠ 'B') c hc
            · exact packageName_no_B pkg hpkg c hc
          · exact (by decide : ∀ c ∈ "@".toList, c ≠ 'B') c hc
        · exact hv' c hc
      · exact (by decide : ∀ c ∈ " as latest".toList, c ≠ 'B') c hc)

/-! ### Unfolding `main` at a validated version -/

theorem validVersion_ne_empty {v : String} (hv : validVersion v = true) : v ≠ "" := by
  intro he
  rw [he] at hv
  exact absurd hv (by decide)

theorem mainRun_valid {v : String} (oracle : Invocation → SpawnResult)
    (hv : validVersion v = true) :
    mainRun (some v) oracle
      = ⟨(runSteps oracle (pipelineInvocations v)).1,
         if (runSteps oracle (pipelineInvocations v)).2 then 0 else 1⟩ := by
  simp only [mainRun]
  rw [if_neg (validVersion_ne_empty hv), if_pos hv]

/-- The first trace entry of a nonempty invocation list. -/
theorem runSteps_head (oracle : Invocation → SpawnResult) (inv : Invocation)
    (rest : List Invocation) :
    (runSteps oracle (inv :: rest)).1[0]? = some (inv, classify oracle inv) := by
  rw [runSteps_cons]
  split <;> simp

/-- Two positions of the publish order holding the same package coincide. -/
theorem publishOrder_index_unique {a b : Nat} {p : String}
    (ha : publishOrder[a]? = some p) (hb : publishOrder[b]? = some p) : a = b := by
  rcases List.getElem?_eq_some_iff.mp ha with ⟨ha', hae⟩
  rcases List.getElem?_eq_some_iff.mp hb with ⟨hb', hbe⟩
  exact (List.Nodup.getElem_inj_iff publishOrder_nodup).mp (hae.trans hbe.symm)

/-! ### Claim theorems for the orchestrator -/

/-- Modelled from the spec: the workspace-relative dependency facts among the
listed packages that the spec states — `cli` depends on `renderer`, and
`renderer` depends on `bundler` (each pair is `(dependent, dependency)`). The
package manifests carrying these dependency edges are not part of the sources
here; only the curated order is. -/
def specWorkspaceDeps : List (String × String) :=
  [("cli", "renderer"), ("renderer", "bundler")]

/-- Claim C1 (the code violates it): the fixed publish order does not place
every package after its workspace dependencies. The spec's own dependency
facts say `cli` depends on `renderer`, yet `publishOrder` publishes `cli` at
index 1 and `renderer` only at index 15, so the publish sequence invokes
`cli` before `renderer` — the positions are unique, so no reading of the
order satisfies the claimed invariant for this pair. -/
theorem C1_order_violation :
    ("cli", "renderer") ∈ specWorkspaceDeps ∧
    publishOrder[1]? = some "cli" ∧
    publishOrder[15]? = some "renderer" ∧
    publishOrder[0]? = some "bundler" ∧
    (∀ i j : Nat, publishOrder[i]? = some "renderer" → publishOrder[j]? = some "cli" →
      ¬ i < j) := by
  refine ⟨by decide, by decide, by decide, by decide, ?_⟩
  intro i j hi hj
  have hi15 : i = 15 := publishOrder_index_unique hi (by decide)
  have hj1 : j = 1 := publishOrder_index_unique hj (by decide)
  omega

/-- Claim C2: the pipeline accepts a version and starts the first stage iff it
matches `/^4\.0\.\d+$/`; a non-matching string (such as `4.1.0`) makes `main`
exit with code 1 before any step is invoked, while a matching string (such as
`4.0.428`) passes validation and the first invocation is the version bump. -/
theorem C2_validate_version :
    ∀ (v : String) (oracle : Invocation → SpawnResult),
      (validVersion v = false → mainRun (some v) oracle = ⟨[], 1⟩) ∧
      (validVersion v = true →
        (mainRun (some v) oracle).trace[0]?
          = some (.bumpVersion v, classify oracle (.bumpVersion v))) ∧
      validVersion "4.1.0" = false ∧ validVersion "4.0.428" = true := by
  intro v oracle
  refine ⟨?_, ?_, by decide, by decide⟩
  · intro hv
    simp only [mainRun]
    by_cases he : v = ""
    · rw [if_pos he]
    · rw [if_neg he, if_neg (by simp [hv])]
  · intro hv
    rw [mainRun_valid oracle hv]
    show (runSteps oracle (Invocation.bumpVersion v ::
        (([.updateVersionFiles v, .installDeps, .build] ++ publishInvocations)
          ++ tagInvocations v publishedPackages))).1[0]? = _
    exact runSteps_head oracle _ _

/-- Witness for C2 at the concrete inputs named by the spec. -/
theorem C2_witness :
    (mainRun (some "4.1.0") allOk) = ⟨[], 1⟩ ∧
    (mainRun (some "4.0.428") allOk).trace[0]?
      = some (.bumpVersion "4.0.428", classify allOk (.bumpVersion "4.0.428")) :=
  ⟨(C2_validate_version "4.1.0" allOk).1 (by decide),
   (C2_validate_version "4.0.428" allOk).2.1 (by decide)⟩

/-- An environment in which only the build exits non-zero (code 1). -/
def oracleBuildWarn : Invocation → SpawnResult :=
  fun inv => if inv = .build then ⟨none, some 1⟩ else ⟨none, some 0⟩

/-- An environment in which only the install step fails, with exit code 2. -/
def oracleInstall2 : Invocation → SpawnResult :=
  fun inv => if inv = .installDeps then ⟨none, some 2⟩ else ⟨none, some 0⟩

/-- An environment in which only the publish of `bundler` fails. -/
def oracleBundlerFail : Invocation → SpawnResult :=
  fun inv => if inv = .publish "bundler" then ⟨none, some 1⟩ else ⟨none, some 0⟩

/-- Claim C3: a build completing with a non-zero code is downgraded to a
warning and the run still proceeds to the publish stage; a build start
failure (spawn error) is fatal and halts the run before any publish; and the
build is the only pipeline stage whose non-zero completion is not fatal. -/
theorem C3_build_tolerance :
    ∀ (v : String) (oracle : Invocation → SpawnResult),
      validVersion v = true →
      classify oracle (.bumpVersion v) ≠ .fatal →
      classify oracle (.updateVersionFiles v) ≠ .fatal →
      classify oracle .installDeps ≠ .fatal →
      (∀ s : Int, s ≠ 0 → oracle .build = ⟨none, some s⟩ →
        (mainRun (some v) oracle).trace[3]? = some (.build, .warning) ∧
        ∃ r, (mainRun (some v) oracle).trace[4]? = some (.publish "bundler", r)) ∧
      (∀ msg, (oracle .build).error = some msg →
        (mainRun (some v) oracle).trace[3]? = some (.build, .fatal) ∧
        (mainRun (some v) oracle).trace.length = 4 ∧
        (mainRun (some v) oracle).exitCode = 1) ∧
      (∀ inv ∈ pipelineInvocations v, inv ≠ .build → ∀ s : Int, s ≠ 0 →
        execClassify (stepOf inv).description ⟨none, some s⟩ = .fatal) := by
  intro v oracle hv h1 h2 h3
  have hpre : ∀ inv ∈ [Invocation.bumpVersion v, .updateVersionFiles v, .installDeps],
      classify oracle inv ≠ .fatal := by
    intro inv hmem
    rcases List.mem_cons.mp hmem with rfl | hmem
    · exact h1
    rcases List.mem_cons.mp hmem with rfl | hmem
    · exact h2
    rcases List.mem_cons.mp hmem with rfl | hmem
    · exact h3
    · exact absurd hmem (List.not_mem_nil inv)
  have hsplit : pipelineInvocations v
      = [Invocation.bumpVersion v, .updateVersionFiles v, .installDeps]
        ++ (Invocation.build
            :: (Invocation.publish "bundler"
                :: (publishOrder.tail.map Invocation.publish
                    ++ tagInvocations v publishedPackages))) := rfl
  refine ⟨?_, ?_, ?_⟩
  · intro s hs hob
    have hw : classify oracle .build = .warning := by
      unfold classify
      rw [hob]
      have hj : jsIncludes (stepOf Invocation.build).description "Build" = true := by decide
      simp [execClassify, hs, hj]
    rw [mainRun_valid oracle hv]
    show ((runSteps oracle (pipelineInvocations v)).1[3]? = _) ∧ _
    rw [hsplit, runSteps_append_ok oracle _ _ hpre, runSteps_cons, if_neg (by rw [hw]; decide)]
    constructor
    · rw [List.getElem?_append_right (by simp)]
      simp [hw]
    · refine ⟨classify oracle (.publish "bundler"), ?_⟩
      rw [List.getElem?_append_right (by simp)]
      simpa using runSteps_head oracle (.publish "bundler") _
  · intro msg hmsg
    have hb : classify oracle .build = .fatal := by
      unfold classify execClassify
      rw [hmsg]
    rw [mainRun_valid oracle hv]
    show ((runSteps oracle (pipelineInvocations v)).1[3]? = _) ∧
      ((runSteps oracle (pipelineInvocations v)).1.length = 4) ∧ _
    rw [hsplit, runSteps_append_ok oracle _ _ hpre, runSteps_cons, if_pos hb]
    refine ⟨?_, by simp, ?_⟩
    · rw [List.getElem?_append_right (by simp)]
      simp [hb]
    · simp
  · intro inv hmem hne s hs
    have hnb := nonbuild_desc hv inv hmem hne
    simp [execClassify, hs, hnb]

/-- Witness for C3: with only the build exiting non-zero, the run records a
build warning at position 3 and still invokes the first publish. -/
theorem C3_witness :
    (mainRun (some "4.0.500") oracleBuildWarn).trace[3]? = some (.build, .warning) ∧
    ∃ r, (mainRun (some "4.0.500") oracleBuildWarn).trace[4]?
      = some (.publish "bundler", r) :=
  (C3_build_tolerance "4.0.500" oracleBuildWarn (by decide) (by decide) (by decide)
    (by decide)).1 1 (by decide) (by decide)

/-- Claim C4: a fatal publish for the package at index `i` of the publish
order means no publish and no tag invocation appears in the same run's trace
for any package at an index greater than `i`. -/
theorem C4_fail_fast :
    ∀ (v : String) (oracle : Invocation → SpawnResult) (i j : Nat) (p q : String),
      validVersion v = true →
      publishOrder[i]? = some p → publishOrder[j]? = some q → i < j →
      (Invocation.publish p, ExecOutcome.fatal) ∈ (mainRun (some v) oracle).trace →
      (∀ r, (Invocation.publish q, r) ∉ (mainRun (some v) oracle).trace) ∧
      (∀ w r, (Invocation.tagLatest w q, r) ∉ (mainRun (some v) oracle).trace) := by
  intro v oracle i j p q hv hip hjq hij hfat
  rw [mainRun_valid oracle hv] at hfat
  obtain ⟨k, hk⟩ := List.getElem?_of_mem hfat
  have hlast := runSteps_fatal_tail oracle (pipelineInvocations v) k _ hk rfl
  have hkinv := (runSteps_entry oracle (pipelineInvocations v) k _ hk).1
  obtain ⟨i', hki, hilt, hi'p⟩ := pipe_pub_pos v hkinv
  have hii : i' = i := publishOrder_index_unique hi'p hip
  subst hii
  constructor
  · intro r hmem
    rw [mainRun_valid oracle hv] at hmem
    obtain ⟨m, hm⟩ := List.getElem?_of_mem hmem
    have hminv := (runSteps_entry oracle (pipelineInvocations v) m _ hm).1
    obtain ⟨j', hmj, _, hj'q⟩ := pipe_pub_pos v hminv
    have hjj : j' = j := publishOrder_index_unique hj'q hjq
    have hmlt : m < (runSteps oracle (pipelineInvocations v)).1.length :=
      (List.getElem?_eq_some_iff.mp hm).1
    omega
  · intro w r hmem
    rw [mainRun_valid oracle hv] at hmem
    obtain ⟨m, hm⟩ := List.getElem?_of_mem hmem
    have hminv := (runSteps_entry oracle (pipelineInvocations v) m _ hm).1
    obtain ⟨t', hmt, _, _, _⟩ := pipe_tag_pos v hminv
    have hmlt : m < (runSteps oracle (pipelineInvocations v)).1.length :=
      (List.getElem?_eq_some_iff.mp hm).1
    omega

/-- Witness for C4: with the publish of `bundler` (index 0) failing, the
publish of `cli` (index 1) never runs. -/
theorem C4_witness :
    (Invocation.publish "cli", ExecOutcome.success)
      ∉ (mainRun (some "4.0.500") oracleBundlerFail).trace :=
  (C4_fail_fast "4.0.500" oracleBundlerFail 0 1 "bundler" "cli" (by decide) (by decide)
    (by decide) (by decide) (by decide)).1 ExecOutcome.success

/-- A `spawnSync` result that is not a successful zero-exit completion. -/
def failedOutcome (r : SpawnResult) : Prop := ¬(r.error = none ∧ r.status = some 0)

/-- Claim C5 as stated is refuted by the `result.status !== null` guard: the
install step (not the build) with a spawn result of no error and a `null`
status — a child that terminated without exiting, i.e. a failed outcome — is
classified as a success, with no warning and no halt. -/
theorem C5_counterexample :
    Invocation.installDeps ∈ pipelineInvocations "4.0.500" ∧
    failedOutcome ⟨none, none⟩ ∧
    Invocation.installDeps ≠ .build ∧
    execClassify (stepOf .installDeps).description ⟨none, none⟩ = .success := by
  refine ⟨by decide, ?_, by decide, rfl⟩
  intro h
  exact Option.noConfusion h.2

/-- Claim C5 (amended): a spawn error on any step is fatal, and a non-zero
(non-null) exit of any step other than the build is fatal; a fatal entry ends
the trace and makes the process exit 1. The one further swallowed case forced
by the counterexample: a `null` exit status without a spawn error is treated
as a success on every step. -/
theorem C5_failures_fatal :
    ∀ v : String, validVersion v = true →
      (∀ inv ∈ pipelineInvocations v,
        (∀ r : SpawnResult, ∀ msg, r.error = some msg →
          execClassify (stepOf inv).description r = .fatal) ∧
        (inv ≠ .build → ∀ s : Int, s ≠ 0 →
          execClassify (stepOf inv).description ⟨none, some s⟩ = .fatal) ∧
        execClassify (stepOf inv).description ⟨none, none⟩ = .success) ∧
      (∀ (oracle : Invocation → SpawnResult) (j : Nat) (e : Invocation × ExecOutcome),
        (mainRun (some v) oracle).trace[j]? = some e → e.2 = .fatal →
        (mainRun (some v) oracle).trace.length = j + 1 ∧
        (mainRun (some v) oracle).exitCode = 1) := by
  intro v hv
  constructor
  · intro inv hmem
    refine ⟨?_, ?_, rfl⟩
    · intro r msg hmsg
      obtain ⟨e, st⟩ := r
      simp only at hmsg
      rw [hmsg]
      rfl
    · intro hne s hs
      have hnb := nonbuild_desc hv inv hmem hne
      simp [execClassify, hs, hnb]
  · intro oracle j e hj hf
    rw [mainRun_valid oracle hv] at hj ⊢
    have := runSteps_fatal_tail oracle (pipelineInvocations v) j e hj hf
    exact ⟨this.1, by simp [this.2]⟩

/-- Witness for C5 (amended) at concrete inputs: a non-zero install exit is
fatal, and a spawn error on the first publish is fatal. -/
theorem C5_witness :
    execClassify (stepOf Invocation.installDeps).description ⟨none, some 2⟩
      = .fatal ∧
    execClassify (stepOf (Invocation.publish "bundler")).description
      ⟨some "spawn bun ENOENT", some 0⟩ = .fatal :=
  ⟨((C5_failures_fatal "4.0.500" (by decide)).1 Invocation.installDeps
      (by decide)).2.1 (by decide) 2 (by decide),
   ((C5_failures_fatal "4.0.500" (by decide)).1 (Invocation.publish "bundler")
      (by decide)).1 ⟨some "spawn bun ENOENT", some 0⟩ "spawn bun ENOENT" rfl⟩

/-- The pipeline ran to completion: a version argument was given, passed
validation, and no step classified fatal. -/
def pipelineSucceeds (argv2 : Option String) (oracle : Invocation → SpawnResult) : Prop :=
  ∃ v, argv2 = some v ∧ v ≠ "" ∧ validVersion v = true ∧
    (runSteps oracle (pipelineInvocations v)).2 = true

/-- Claim C6 as stated is refuted: when the install step exits with code 2,
the run halts fatally at that step, but the process exit code is the fixed 1
of `process.exit(1)` — the failing step's own exit code is not propagated. -/
theorem C6_counterexample :
    (oracleInstall2 Invocation.installDeps).status = some 2 ∧
    (mainRun (some "4.0.500") oracleInstall2).trace.getLast?
      = some (.installDeps, .fatal) ∧
    (mainRun (some "4.0.500") oracleInstall2).exitCode = 1 ∧
    (mainRun (some "4.0.500") oracleInstall2).exitCode ≠ 2 := by
  refine ⟨by decide, by decide, by decide, by decide⟩

/-- Claim C6 (amended): the exit code is 0 exactly when the full pipeline
succeeds; every fatal halt — step failure, usage error and validation error
alike — exits with the single fixed code 1, not with the failing step's own
exit code. -/
theorem C6_exit_code :
    ∀ (argv2 : Option String) (oracle : Invocation → SpawnResult),
      ((mainRun argv2 oracle).exitCode = 0 ↔ pipelineSucceeds argv2 oracle) ∧
      ((mainRun argv2 oracle).exitCode = 0 ∨ (mainRun argv2 oracle).exitCode = 1) := by
  intro argv2 oracle
  match argv2 with
  | none =>
      refine ⟨⟨fun h => absurd h (by simp [mainRun]), fun h => ?_⟩, Or.inr rfl⟩
      obtain ⟨v, hv, -⟩ := h
      cases hv
  | some v =>
      by_cases he : v = ""
      · subst he
        refine ⟨⟨fun h => absurd h (by simp [mainRun]), fun h => ?_⟩, Or.inr rfl⟩
        obtain ⟨w, hw, hne, -⟩ := h
        cases hw
        exact absurd rfl hne
      · by_cases hv : validVersion v = true
        · rw [mainRun_valid oracle hv]
          by_cases hr : (runSteps oracle (pipelineInvocations v)).2 = true
          · exact ⟨⟨fun _ => ⟨v, rfl, he, hv, hr⟩, fun _ => by simp [hr]⟩,
              Or.inl (by simp [hr])⟩
          · refine ⟨⟨fun h => absurd h (by simp [hr]), fun h => ?_⟩,
              Or.inr (by simp [hr])⟩
            obtain ⟨w, hw, -, -, hr'⟩ := h
            cases hw
            exact absurd hr' hr
        · have hm : mainRun (some v) oracle = ⟨[], 1⟩ := by
            simp only [mainRun]
            rw [if_neg he, if_neg hv]
          rw [hm]
          refine ⟨⟨fun h => absurd h (by simp), fun h => ?_⟩, Or.inr rfl⟩
          obtain ⟨w, hw, -, hv', -⟩ := h
          cases hw
          exact absurd hv' hv

/-- Recognizer for tag invocations. -/
def isTagInv : Invocation → Bool
  | .tagLatest _ _ => true
  | _ => false

/-- An invocation recorded in the trace at an in-range position of the
invocation list. -/
theorem trace_at (oracle : Invocation → SpawnResult) (L : List Invocation) {j : Nat}
    {inv : Invocation} (hjlen : j < (runSteps oracle L).1.length)
    (hL : L[j]? = some inv) :
    ∃ r, (runSteps oracle L).1[j]? = some (inv, r) := by
  obtain ⟨tl, htl⟩ := runSteps_prefix oracle L
  have hmap : ((runSteps oracle L).1.map Prod.fst)[j]? = L[j]? := by
    conv_rhs => rw [← htl]
    rw [List.getElem?_append_left (by simpa using hjlen)]
  rw [hL, List.getElem?_map] at hmap
  obtain ⟨⟨e1, e2⟩, he, he1⟩ := Option.map_eq_some'.mp hmap
  simp only at he1
  subst he1
  exact ⟨e2, he⟩

/-- Claim C7: a tag entry in a run's trace is preceded by trace entries for
the publishes of all 29 listed packages; on a completed run, the tag
invocations are exactly one per entry of the list `publishPackages` returned,
in the same order; and each tag invocation names the package's derived
registry name — un-scoped `remotion` for `core`, `@remotion/<pkg>` otherwise
— at the accepted version. -/
theorem C7_tags_after_publishes :
    ∀ (v : String) (oracle : Invocation → SpawnResult),
      validVersion v = true →
      (∀ (j : Nat) (w p : String) (r : ExecOutcome),
        (mainRun (some v) oracle).trace[j]? = some (Invocation.tagLatest w p, r) →
        ∀ (i : Nat) (q : String), publishOrder[i]? = some q →
          ∃ (k : Nat) (r' : ExecOutcome), k < j ∧
            (mainRun (some v) oracle).trace[k]? = some (Invocation.publish q, r')) ∧
      ((mainRun (some v) oracle).exitCode = 0 →
        ((mainRun (some v) oracle).trace.map Prod.fst).filter isTagInv
          = publishedPackages.map (Invocation.tagLatest v)) ∧
      (∀ pkg, (stepOf (.tagLatest v pkg)).args[2]? = some (packageName pkg ++ "@" ++ v)) ∧
      packageName "core" = "remotion" ∧
      (∀ pkg, pkg ≠ "core" → packageName pkg = "@remotion/" ++ pkg) := by
  intro v oracle hv
  refine ⟨?_, ?_, fun pkg => rfl, rfl, fun pkg h => by simp [packageName, h]⟩
  · intro j w p r hj i q hiq
    have hj' : (runSteps oracle (pipelineInvocations v)).1[j]?
        = some (Invocation.tagLatest w p, r) := by
      rw [mainRun_valid oracle hv] at hj
      exact hj
    have hjinv := (runSteps_entry oracle (pipelineInvocations v) j _ hj').1
    obtain ⟨t', hjt, -, -, -⟩ := pipe_tag_pos v hjinv
    have hjlt : j < (runSteps oracle (pipelineInvocations v)).1.length :=
      (List.getElem?_eq_some_iff.mp hj').1
    have hilt : i < 29 := by
      have := (List.getElem?_eq_some_iff.mp hiq).1
      rwa [publishOrder_length] at this
    have hp : (pipelineInvocations v)[4 + i]? = some (Invocation.publish q) := by
      rw [pipe_getElem_pub v hilt, hiq]
      rfl
    obtain ⟨r', hr'⟩ := trace_at oracle (pipelineInvocations v) (by omega) hp
    refine ⟨4 + i, r', by omega, ?_⟩
    rw [mainRun_valid oracle hv]
    exact hr'
  · intro h0
    have hok : (runSteps oracle (pipelineInvocations v)).2 = true := by
      rw [mainRun_valid oracle hv] at h0
      by_cases hr : (runSteps oracle (pipelineInvocations v)).2 = true
      · exact hr
      · simp [hr] at h0
    have htr : (mainRun (some v) oracle).trace
        = (pipelineInvocations v).map fun inv => (inv, classify oracle inv) := by
      rw [mainRun_valid oracle hv]
      exact runSteps_complete oracle (pipelineInvocations v) hok
    rw [htr, List.map_map]
    have hid : (Prod.fst ∘ fun inv => (inv, classify oracle inv)) = id := rfl
    rw [hid, List.map_id]
    simp only [pipelineInvocations]
    rw [List.filter_append, List.filter_append]
    have h1 : ([Invocation.bumpVersion v, Invocation.updateVersionFiles v,
        Invocation.installDeps, Invocation.build]).filter isTagInv = [] := rfl
    have h2 : publishInvocations.filter isTagInv = [] := by
      rw [publishInvocations, List.filter_map]
      have hc : (isTagInv ∘ Invocation.publish) = fun _ => false := rfl
      rw [hc]
      simp
    have h3 : (tagInvocations v publishedPackages).filter isTagInv
        = publishedPackages.map (Invocation.tagLatest v) := by
      rw [tagInvocations, List.filter_map]
      have hc : (isTagInv ∘ Invocation.tagLatest v) = fun _ => true := rfl
      rw [hc]
      simp
    rw [h1, h2, h3]
    simp

/-- Witness for C7: on an all-success run at `4.0.500`, the tag of `cli` at
trace position 34 is preceded by the publish of `renderer`, and the naming
rule instances hold. -/
theorem C7_witness :
    (∃ k r', k < 34 ∧ (mainRun (some "4.0.500") allOk).trace[k]?
      = some (.publish "renderer", r')) ∧
    packageName "core" = "remotion" :=
  ⟨(C7_tags_after_publishes "4.0.500" allOk (by decide)).1 34 "4.0.500" "cli"
      ExecOutcome.success (by decide) 15 "renderer" (by decide),
   (C7_tags_after_publishes "4.0.500" allOk (by decide)).2.2.2.1⟩

/-! ### The version propagator (`update-version.ts`)

`update-version.ts` reads each manifest with `JSON.parse`, assigns the
`version` property, and writes `JSON.stringify(packageJson, null, '\t') + '\n'`.
The two builtins are modelled by an executable parser and printer over the
JSON value type below. Numbers are modelled as exact integers: IEEE-754
fraction/exponent literals are outside the model. A manifest whose top level
is not an object is carried through the version assignment unchanged (for a
parsed array, `JSON.stringify` likewise ignores the assigned property). -/

mutual
inductive Json where
  | null
  | bool (b : Bool)
  | num (n : Int)
  | str (s : List Char)
  | arr (xs : JArr)
  | obj (fs : JObj)
inductive JArr where
  | nil
  | cons (hd : Json) (tl : JArr)
inductive JObj where
  | nil
  | cons (key : List Char) (val : Json) (tl : JObj)
end

/-- The indentation prefix at nesting depth `d` for the `'\t'` indent. -/
def tabs (d : Nat) : List Char := List.replicate d '\t'

def digChar (n : Nat) : Char := Char.ofNat (48 + n)

/-- Lowercase hexadecimal digit, as `JSON.stringify` emits in `\u` escapes. -/
def hexDig (n : Nat) : Char := if n < 10 then Char.ofNat (48 + n) else Char.ofNat (87 + n)

/-- One character as `JSON.stringify` renders it inside a string literal:
quote, backslash and control characters are escaped (named escapes for the
common ones, `\u00XX` otherwise); everything else is emitted as is. -/
def escChar (c : Char) : List Char :=
  if c = '"' then ['\\', '"']
  else if c = '\\' then ['\\', '\\']
  else if c = '\n' then ['\\', 'n']
  else if c = '\t' then ['\\', 't']
  else if c = '\r' then ['\\', 'r']
  else if c = '\x08' then ['\\', 'b']
  else if c = '\x0c' then ['\\', 'f']
  else if c.toNat < 32 then
    ['\\', 'u', '0', '0', hexDig (c.toNat / 16), hexDig (c.toNat % 16)]
  else [c]

def escStr : List Char → List Char
  | [] => []
  | c :: cs => escChar c ++ escStr cs

/-- A rendered string literal, quotes included. -/
def quoteStr (s : List Char) : List Char := '"' :: (escStr s ++ ['"'])

def natDigsAux : Nat → Nat → List Char → List Char
  | 0, _, acc => acc
  | f + 1, n, acc =>
      if n < 10 then digChar n :: acc else natDigsAux f (n / 10) (digChar (n % 10) :: acc)

/-- Decimal digits of a natural number, most significant first. -/
def natDigs (n : Nat) : List Char := natDigsAux (n + 1) n []

/-- Decimal rendering of an integer. -/
def intDigs (i : Int) : List Char :=
  if i < 0 then '-' :: natDigs i.natAbs else natDigs i.natAbs

mutual
/-- `JSON.stringify(·, null, '\t')` at nesting depth `d`: arrays and objects
with at least one entry break onto indented lines; empty ones render flat. -/
def prettyJson : Json → Nat → List Char
  | .null, _ => ['n', 'u', 'l', 'l']
  | .bool true, _ => ['t', 'r', 'u', 'e']
  | .bool false, _ => ['f', 'a', 'l', 's', 'e']
  | .num n, _ => intDigs n
  | .str s, _ => quoteStr s
  | .arr .nil, _ => ['[', ']']
  | .arr (.cons x tl), d =>
      '[' :: '\n' :: (tabs (d + 1) ++ (prettyJson x (d + 1) ++ arrRest tl (d + 1) d))
  | .obj .nil, _ => ['{', '}']
  | .obj (.cons k val tl), d =>
      '{' :: '\n' :: (tabs (d + 1)
        ++ (quoteStr k ++ ':' :: ' ' :: (prettyJson val (d + 1) ++ objRest tl (d + 1) d)))
def arrRest : JArr → Nat → Nat → List Char
  | .nil, _, dc => '\n' :: (tabs dc ++ [']'])
  | .cons y tl, d, dc => ',' :: '\n' :: (tabs d ++ (prettyJson y d ++ arrRest tl d dc))
def objRest : JObj → Nat → Nat → List Char
  | .nil, _, dc => '\n' :: (tabs dc ++ ['}'])
  | .cons k val tl, d, dc =>
      ',' :: '\n' :: (tabs d
        ++ (quoteStr k ++ ':' :: ' ' :: (prettyJson val d ++ objRest tl d dc)))
end

/-- Top-level serialization of a manifest. -/
def stringifyTabs (j : Json) : List Char := prettyJson j 0

/-! #### The parser (`JSON.parse`), fuel-indexed for structural totality -/

def isWsChar (c : Char) : Bool := c = ' ' || c = '\t' || c = '\n' || c = '\r'

def skipWs : List Char → List Char
  | c :: cs => if isWsChar c then skipWs cs else c :: cs
  | [] => []

def hexVal (c : Char) : Option Nat :=
  if '0' ≤ c ∧ c ≤ '9' then some (c.toNat - 48)
  else if 'a' ≤ c ∧ c ≤ 'f' then some (c.toNat - 87)
  else if 'A' ≤ c ∧ c ≤ 'F' then some (c.toNat - 55)
  else none

/-- String-literal body after the opening quote: named escapes, `\uXXXX`, and
raw characters (control characters are rejected, as in JSON). -/
def parseStrBody : Nat → List Char → Option (List Char × List Char)
  | 0, _ => none
  | _ + 1, [] => none
  | f + 1, c :: r =>
      if c = '"' then some ([], r)
      else if c = '\\' then
        match r with
        | [] => none
        | e :: r1 =>
            match e with
            | '"' => (parseStrBody f r1).map (fun p => ('"' :: p.1, p.2))
            | '\\' => (parseStrBody f r1).map (fun p => ('\\' :: p.1, p.2))
            | '/' => (parseStrBody f r1).map (fun p => ('/' :: p.1, p.2))
            | 'n' => (parseStrBody f r1).map (fun p => ('\n' :: p.1, p.2))
            | 't' => (parseStrBody f r1).map (fun p => ('\t' :: p.1, p.2))
            | 'r' => (parseStrBody f r1).map (fun p => ('\r' :: p.1, p.2))
            | 'b' => (parseStrBody f r1).map (fun p => ('\x08' :: p.1, p.2))
            | 'f' => (parseStrBody f r1).map (fun p => ('\x0c' :: p.1, p.2))
            | 'u' =>
                (match r1 with
                 | a :: b :: c2 :: d :: r2 =>
                     match hexVal a, hexVal b, hexVal c2, hexVal d with
                     | some va, some vb, some vc, some vd =>
                         (parseStrBody f r2).map
                           (fun p =>
                             (Char.ofNat (((va * 16 + vb) * 16 + vc) * 16 + vd) :: p.1, p.2))
                     | _, _, _, _ => none
                 | _ => none)
            | _ => none
      else if c.toNat < 32 then none
      else (parseStrBody f r).map (fun p => (c :: p.1, p.2))

def takeDigs : List Char → List Char × List Char
  | c :: cs =>
      if c.isDigit then
        let p := takeDigs cs
        (c :: p.1, p.2)
      else ([], c :: cs)
  | [] => ([], [])

def digitsVal (ds : List Char) : Nat := ds.foldl (fun a c => a * 10 + (c.toNat - 48)) 0

def parseNumber : List Char → Option (Int × List Char)
  | [] => none
  | c :: cs =>
      if c = '-' then
        let p := takeDigs cs
        if p.1 = [] then none else some (-(digitsVal p.1 : Int), p.2)
      else
        let p := takeDigs (c :: cs)
        if p.1 = [] then none else some ((digitsVal p.1 : Int), p.2)

mutual
/-- A JSON value; the input must already start at a non-blank character. -/
def parseJson : Nat → List Char → Option (Json × List Char)
  | 0, _ => none
  | f + 1, cs =>
      match cs with
      | 'n' :: 'u' :: 'l' :: 'l' :: r => some (.null, r)
      | 't' :: 'r' :: 'u' :: 'e' :: r => some (.bool true, r)
      | 'f' :: 'a' :: 'l' :: 's' :: 'e' :: r => some (.bool false, r)
      | '"' :: r => (parseStrBody f r).map (fun p => (Json.str p.1, p.2))
      | '[' :: r =>
          (match skipWs r with
           | ']' :: r2 => some (Json.arr .nil, r2)
           | r2 =>
               match parseJson f r2 with
               | some (x, r3) =>
                   (parseArrRest f r3).map (fun p => (Json.arr (.cons x p.1), p.2))
               | none => none)
      | '{' :: r =>
          (match skipWs r with
           | '}' :: r2 => some (Json.obj .nil, r2)
           | '"' :: r2 =>
               (match parseStrBody f r2 with
                | some (k, r3) =>
                    (match skipWs r3 with
                     | ':' :: r4 =>
                         (match parseJson f (skipWs r4) with
                          | some (val, r5) =>
                              (parseObjRest f r5).map
                                (fun p => (Json.obj (.cons k val p.1), p.2))
                          | none => none)
                     | _ => none)
                | none => none)
           | _ => none)
      | c :: r =>
          if c = '-' || c.isDigit then
            (parseNumber (c :: r)).map (fun p => (Json.num p.1, p.2))
          else none
      | [] => none
/-- After one array element: a comma and a further element, or the close. -/
def parseArrRest : Nat → List Char → Option (JArr × List Char)
  | 0, _ => none
  | f + 1, cs =>
      match skipWs cs with
      | ']' :: r => some (.nil, r)
      | ',' :: r =>
          (match parseJson f (skipWs r) with
           | some (x, r2) => (parseArrRest f r2).map (fun p => (JArr.cons x p.1, p.2))
           | none => none)
      | _ => none
/-- After one object member: a comma and a further member, or the close. -/
def parseObjRest : Nat → List Char → Option (JObj × List Char)
  | 0, _ => none
  | f + 1, cs =>
      match skipWs cs with
      | '}' :: r => some (.nil, r)
      | ',' :: r =>
          (match skipWs r with
           | '"' :: r1 =>
               (match parseStrBody f r1 with
                | some (k, r2) =>
                    (match skipWs r2 with
                     | ':' :: r3 =>
                         (match parseJson f (skipWs r3) with
                          | some (val, r4) =>
                              (parseObjRest f r4).map (fun p => (JObj.cons k val p.1, p.2))
                          | none => none)
                     | _ => none)
                | none => none)
           | _ => none)
      | _ => none
end

/-- `JSON.parse` of a whole document: leading and trailing blanks allowed,
nothing else after the value. -/
def parseText (s : List Char) : Option Json :=
  match parseJson (s.length + 1) (skipWs s) with
  | some (j, r) => if skipWs r = [] then some j else none
  | none => none

/-! #### The version assignment and the rewrite loop -/

/-- JavaScript property assignment on an object: an existing key keeps its
position and gets the new value; a missing key is appended. -/
def setKey : JObj → List Char → Json → JObj
  | .nil, k, v => .cons k v .nil
  | .cons k' v' tl, k, v =>
      if k' = k then .cons k v tl else .cons k' v' (setKey tl k v)

/-- Property lookup (first occurrence). -/
def getKey : JObj → List Char → Option Json
  | .nil, _ => none
  | .cons k' v' tl, k => if k' = k then some v' else getKey tl k

/-- `packageJson.version = version` on the parsed manifest. -/
def setVersion (j : Json) (version : List Char) : Json :=
  match j with
  | .obj fs => .obj (setKey fs "version".toList (.str version))
  | other => other

/-- The bytes `update-version.ts` writes for a parsed manifest:
`JSON.stringify(packageJson, null, '\t') + '\n'`. -/
def jsonOut (j : Json) : String := ⟨stringifyTabs j ++ ['\n']⟩

/-- One manifest rewrite: parse, assign the version, re-serialize. `none`
models `JSON.parse` throwing (which kills the script). -/
def updateManifestText (version : String) (text : String) : Option String :=
  match parseText text.toList with
  | some j => some (jsonOut (setVersion j version.toList))
  | none => none

/-- The console lines of `update-version.ts` that matter here: the per-file
`✓ Updated … to v…` line (keyed by the directory processed) and the final
`✅ Updated N packages…` count line. -/
inductive LogLine where
  | updatedPkg (dir : String)
  | summary (count : Nat)
deriving DecidableEq

/-- The mutable state of one `update-version.ts` run: the manifest file per
package directory, the `updated` counter, and the console output so far. -/
structure UVState where
  fs : List (String × String)
  updated : Nat
  logs : List LogLine
deriving DecidableEq

def lookupFs : List (String × String) → String → Option String
  | [], _ => none
  | (d', t') :: rest, d => if d' = d then some t' else lookupFs rest d

def setFs : List (String × String) → String → String → List (String × String)
  | [], d, t => [(d, t)]
  | (d', t') :: rest, d, t => if d' = d then (d, t) :: rest else (d', t') :: setFs rest d t

/-- `FEATURED_TEMPLATES.map((t) => t.templateInMonorepo).filter(Boolean)`:
the registry's optional monorepo template identifiers, with the JavaScript
falsy values (missing and empty) dropped. The registry itself
(`packages/create-video/src/templates.ts`) is an external collaborator; only
its `templateInMonorepo` fields matter here. -/
def localTemplates (registry : List (Option String)) : List String :=
  (registry.filterMap id).filter (fun s => decide (s ≠ ""))

/-- The rewrite loop of `update-version.ts` over the filtered directory list:
template directories are skipped; otherwise the manifest is read, parsed,
version-assigned, re-serialized and written back, the counter incremented and
the per-file line logged. A missing file or an unparseable manifest throws
(`.error` carries the state at the crash — no further line is printed); after
the loop the count line is printed. -/
def runUV (registry : List (Option String)) (version : String) :
    List String → UVState → Except UVState UVState
  | [], st => .ok { st with logs := st.logs ++ [.summary st.updated] }
  | dir :: rest, st =>
      if dir ∈ localTemplates registry then runUV registry version rest st
      else
        match lookupFs st.fs dir with
        | none => .error st
        | some text =>
            match updateManifestText version text with
            | none => .error st
            | some newText =>
                runUV registry version rest
                  { fs := setFs st.fs dir newText,
                    updated := st.updated + 1,
                    logs := st.logs ++ [.updatedPkg dir] }

example : updateManifestText "4.0.500"
    "\x7b\"name\": \"alpha\", \"version\": \"1.0.0\"\x7d"
    = some "\x7b\n\t\"name\": \"alpha\",\n\t\"version\": \"4.0.500\"\n\x7d\n" := by
  decide

example : updateManifestText "4.0.500" "not json" = none := by decide

/-! #### Round-trip: numbers -/

/-- A remainder that cannot extend a number: empty or not digit-headed. -/
def numDelim : List Char → Bool
  | [] => true
  | c :: _ => !c.isDigit

theorem digChar_spec {k : Nat} (h : k < 10) :
    (digChar k).toNat = 48 + k ∧ (digChar k).isDigit = true := by
  interval_cases k <;> exact ⟨rfl, by decide⟩

theorem natDigsAux_irrel :
    ∀ (f f' n : Nat) (acc : List Char), n < f → n < f' →
      natDigsAux f n acc = natDigsAux f' n acc
  | 0, _, n, _, hf, _ => absurd hf (by omega)
  | _ + 1, 0, n, _, _, hf' => absurd hf' (by omega)
  | f + 1, f' + 1, n, acc, hf, hf' => by
      rw [natDigsAux, natDigsAux]
      by_cases h10 : n < 10
      · rw [if_pos h10, if_pos h10]
      · rw [if_neg h10, if_neg h10]
        exact natDigsAux_irrel f f' (n / 10) _ (by omega) (by omega)

theorem natDigsAux_acc :
    ∀ (f n : Nat) (acc : List Char), natDigsAux f n acc = natDigsAux f n [] ++ acc
  | 0, n, acc => rfl
  | f + 1, n, acc => by
      rw [natDigsAux, natDigsAux]
      by_cases h10 : n < 10
      · rw [if_pos h10, if_pos h10]
        rfl
      · rw [if_neg h10, if_neg h10, natDigsAux_acc f (n / 10) (digChar (n % 10) :: acc),
          natDigsAux_acc f (n / 10) [digChar (n % 10)]]
        simp

/-- The digit list satisfies the usual most-significant-first recurrence. -/
theorem natDigs_eq (n : Nat) :
    natDigs n = if n < 10 then [digChar n] else natDigs (n / 10) ++ [digChar (n % 10)] := by
  rw [natDigs, natDigsAux]
  by_cases h10 : n < 10
  · rw [if_pos h10, if_pos h10]
  · rw [if_neg h10, if_neg h10,
      natDigsAux_irrel n (n / 10 + 1) (n / 10) _ (by omega) (by omega),
      natDigsAux_acc (n / 10 + 1) (n / 10) [digChar (n % 10)]]
    rfl

theorem natDigs_ne_nil (n : Nat) : natDigs n ≠ [] := by
  rw [natDigs_eq]
  split <;> simp

theorem natDigs_digits (n : Nat) : ∀ c ∈ natDigs n, c.isDigit = true := by
  induction n using Nat.strongRecOn with
  | _ n ih =>
      rw [natDigs_eq]
      by_cases h10 : n < 10
      · rw [if_pos h10]
        intro c hc
        rw [List.mem_singleton] at hc
        subst hc
        exact (digChar_spec h10).2
      · rw [if_neg h10]
        intro c hc
        rcases List.mem_append.mp hc with hc | hc
        · exact ih (n / 10) (by omega) c hc
        · rw [List.mem_singleton] at hc
          subst hc
          exact (digChar_spec (Nat.mod_lt _ (by omega))).2

theorem digitsVal_natDigs (n : Nat) : digitsVal (natDigs n) = n := by
  induction n using Nat.strongRecOn with
  | _ n ih =>
      rw [natDigs_eq]
      by_cases h10 : n < 10
      · rw [if_pos h10]
        show 0 * 10 + ((digChar n).toNat - 48) = n
        rw [(digChar_spec h10).1]
        omega
      · rw [if_neg h10]
        show ((natDigs (n / 10)) ++ [digChar (n % 10)]).foldl _ 0 = n
        rw [List.foldl_append]
        show digitsVal (natDigs (n / 10)) * 10 + ((digChar (n % 10)).toNat - 48) = n
        rw [ih (n / 10) (by omega), (digChar_spec (Nat.mod_lt _ (by omega))).1]
        omega

theorem takeDigs_stop {cs : List Char} (h : numDelim cs = true) : takeDigs cs = ([], cs) := by
  match cs with
  | [] => rfl
  | c :: t =>
      simp only [numDelim, Bool.not_eq_true'] at h
      rw [takeDigs, if_neg (by rw [h]; exact Bool.false_ne_true)]

theorem takeDigs_app :
    ∀ {ds : List Char}, (∀ c ∈ ds, c.isDigit = true) →
      ∀ {rest : List Char}, takeDigs rest = ([], rest) →
      takeDigs (ds ++ rest) = (ds, rest)
  | [], _, rest, hrest => by simpa using hrest
  | c :: t, hds, rest, hrest => by
      rw [List.cons_append, takeDigs, if_pos (hds c (by simp)),
        takeDigs_app (fun x hx => hds x (by simp [hx])) hrest]

theorem digit_head_props {c : Char} (h : c.isDigit = true) :
    c ≠ '-' ∧ c ≠ '"' ∧ c ≠ '[' ∧ c ≠ '{' ∧ c ≠ ']' ∧ c ≠ '}' ∧ c ≠ ',' ∧
      isWsChar c = false ∧ c ≠ 'n' ∧ c ≠ 't' ∧ c ≠ 'f' := by
  refine ⟨?_, ?_, ?_, ?_, ?_, ?_, ?_, ?_, ?_, ?_, ?_⟩ <;>
    first
      | (intro he; rw [he] at h; exact absurd h (by decide))
      | (rw [show c = c from rfl]
         rcases Nat.lt_or_ge c.toNat 48 with hlt | hge
         · simp only [isWsChar]
           refine Bool.or_eq_false_iff.mpr ⟨Bool.or_eq_false_iff.mpr
             ⟨Bool.or_eq_false_iff.mpr ⟨?_, ?_⟩, ?_⟩, ?_⟩ <;>
             · rw [decide_eq_false_iff_not]
               intro he
               rw [he] at h
               exact absurd h (by decide)
         · simp only [isWsChar]
           refine Bool.or_eq_false_iff.mpr ⟨Bool.or_eq_false_iff.mpr
             ⟨Bool.or_eq_false_iff.mpr ⟨?_, ?_⟩, ?_⟩, ?_⟩ <;>
             · rw [decide_eq_false_iff_not]
               intro he
               rw [he] at h
               exact absurd h (by decide))

/-- The number round-trip: parsing a rendered integer recovers it, whenever
the remainder cannot extend the digit run. -/
theorem parseNumber_intDigs (n : Int) {rest : List Char} (hr : numDelim rest = true) :
    parseNumber (intDigs n ++ rest) = some (n, rest) := by
  by_cases hneg : n < 0
  · rw [intDigs, if_pos hneg, List.cons_append, parseNumber, if_pos rfl]
    rw [takeDigs_app (natDigs_digits _) (takeDigs_stop hr)]
    rw [if_neg (by simpa using natDigs_ne_nil n.natAbs)]
    rw [digitsVal_natDigs]
    have : -((n.natAbs : Nat) : Int) = n := by omega
    rw [this]
  · rw [intDigs, if_neg hneg]
    obtain ⟨c, t, hct⟩ : ∃ c t, natDigs n.natAbs = c :: t := by
      match h : natDigs n.natAbs with
      | [] => exact absurd h (natDigs_ne_nil _)
      | c :: t => exact ⟨c, t, rfl⟩
    have hcd : c.isDigit = true := natDigs_digits n.natAbs c (by rw [hct]; simp)
    rw [hct, List.cons_append, parseNumber, if_neg (digit_head_props hcd).1]
    have htd : takeDigs (c :: t ++ rest) = (c :: t, rest) := by
      have := takeDigs_app (natDigs_digits n.natAbs) (takeDigs_stop hr)
      rwa [hct] at this
    rw [List.cons_append] at htd
    rw [htd]
    rw [if_neg (by simp)]
    have hdv : digitsVal (c :: t) = n.natAbs := by
      have := digitsVal_natDigs n.natAbs
      rwa [hct] at this
    rw [hdv]
    have : ((n.natAbs : Nat) : Int) = n := by omega
    rw [this]

/-! #### Round-trip: strings -/

theorem hexVal_hexDig {k : Nat} (h : k < 16) : hexVal (hexDig k) = some k := by
  interval_cases k <;> decide

theorem escChar_ne_nil (c : Char) : escChar c ≠ [] := by
  unfold escChar
  split <;> try simp
  split <;> try simp
  split <;> try simp
  split <;> try simp
  split <;> try simp
  split <;> try simp
  split <;> try simp
  split <;> simp

/-- Parsing one rendered (escaped) character consumes it and recurses. -/
theorem parseStrBody_esc (c : Char) (f : Nat) (r : List Char) :
    parseStrBody (f + 1) (escChar c ++ r)
      = (parseStrBody f r).map (fun p => (c :: p.1, p.2)) := by
  by_cases h1 : c = '"'
  · subst h1; rfl
  by_cases h2 : c = '\\'
  · subst h2; rfl
  by_cases h3 : c = '\n'
  · subst h3
    rw [show escChar '\n' = ['\\', 'n'] from rfl]
    rfl
  by_cases h4 : c = '\t'
  · subst h4
    rw [show escChar '\t' = ['\\', 't'] from rfl]
    rfl
  by_cases h5 : c = '\r'
  · subst h5
    rw [show escChar '\r' = ['\\', 'r'] from rfl]
    rfl
  by_cases h6 : c = '\x08'
  · subst h6
    rw [show escChar '\x08' = ['\\', 'b'] from rfl]
    rfl
  by_cases h7 : c = '\x0c'
  · subst h7
    rw [show escChar '\x0c' = ['\\', 'f'] from rfl]
    rfl
  by_cases h8 : c.toNat < 32
  · rw [show escChar c
        = ['\\', 'u', '0', '0', hexDig (c.toNat / 16), hexDig (c.toNat % 16)] from by
      unfold escChar
      rw [if_neg h1, if_neg h2, if_neg h3, if_neg h4, if_neg h5, if_neg h6, if_neg h7,
        if_pos h8]]
    show parseStrBody (f + 1)
        ('\\' :: 'u' :: '0' :: '0' :: hexDig (c.toNat / 16) :: hexDig (c.toNat % 16) :: r)
      = _
    have hhi := hexVal_hexDig (show c.toNat / 16 < 16 by omega)
    have hlo := hexVal_hexDig (show c.toNat % 16 < 16 by omega)
    rw [parseStrBody.eq_def]
    simp only [hhi, hlo, show hexVal '0' = some 0 from by decide]
    have harith : ((0 * 16 + 0) * 16 + c.toNat / 16) * 16 + c.toNat % 16 = c.toNat := by
      omega
    rw [harith, Char.ofNat_toNat, if_neg (show ¬('\\' = '"') by decide), if_pos trivial]
  · rw [show escChar c = [c] from by
      unfold escChar
      rw [if_neg h1, if_neg h2, if_neg h3, if_neg h4, if_neg h5, if_neg h6, if_neg h7,
        if_neg h8]]
    show parseStrBody (f + 1) (c :: r) = _
    rw [parseStrBody.eq_def]
    simp only []
    rw [if_neg h1, if_neg h2, if_neg h8]

/-- The string round-trip: the printed body (escapes included) parses back to
the original characters, stopping at the closing quote. -/
theorem parseStrBody_escStr :
    ∀ (s : List Char) (f : Nat) (r : List Char), (escStr s).length < f →
      parseStrBody f (escStr s ++ '"' :: r) = some (s, r)
  | [], f, r, hf => by
      match f, hf with
      | f + 1, _ => rfl
  | c :: s', f, r, hf => by
      match f, hf with
      | f + 1, hf =>
          rw [show escStr (c :: s') = escChar c ++ escStr s' from rfl, List.append_assoc,
            parseStrBody_esc c f _]
          have hlt : (escStr s').length < f := by
            have h1 : 1 ≤ (escChar c).length :=
              List.length_pos.mpr (escChar_ne_nil c)
            have h2 : (escStr (c :: s')).length
                = (escChar c).length + (escStr s').length := by
              rw [show escStr (c :: s') = escChar c ++ escStr s' from rfl,
                List.length_append]
            omega
          rw [parseStrBody_escStr s' f r hlt]
          rfl

/-! #### Round-trip: whitespace, heads and lengths -/

theorem skipWs_cons_ws {c : Char} (h : isWsChar c = true) (r : List Char) :
    skipWs (c :: r) = skipWs r := by
  rw [skipWs, if_pos h]

theorem skipWs_cons_not {c : Char} (h : isWsChar c = false) (r : List Char) :
    skipWs (c :: r) = c :: r := by
  rw [skipWs, if_neg (by rw [h]; exact Bool.false_ne_true)]

theorem tabs_length (d : Nat) : (tabs d).length = d := by
  rw [tabs, List.length_replicate]

theorem skipWs_tabs (d : Nat) (r : List Char) : skipWs (tabs d ++ r) = skipWs r := by
  induction d with
  | zero => rfl
  | succ d ih =>
      rw [tabs, List.replicate_succ, List.cons_append, skipWs_cons_ws (by decide)]
      exact ih

/-- Every rendered value begins with a character that is not blank and closes
no bracket. -/
theorem prettyJson_head (x : Json) (d : Nat) :
    ∃ c t, prettyJson x d = c :: t ∧ isWsChar c = false ∧ c ≠ ']' ∧ c ≠ '}' := by
  cases x with
  | null => exact ⟨'n', _, rfl, by decide⟩
  | bool b =>
      cases b
      case true => exact ⟨'t', _, rfl, by decide⟩
      case false => exact ⟨'f', _, rfl, by decide⟩
  | str s => exact ⟨'"', _, rfl, by decide⟩
  | arr xs =>
      cases xs
      case nil => exact ⟨'[', _, rfl, by decide⟩
      case cons x tl => exact ⟨'[', _, rfl, by decide⟩
  | obj fs =>
      cases fs
      case nil => exact ⟨'{', _, rfl, by decide⟩
      case cons k v tl => exact ⟨'{', _, rfl, by decide⟩
  | num n =>
      by_cases hneg : n < 0
      · refine ⟨'-', natDigs n.natAbs, ?_, by decide⟩
        show intDigs n = _
        rw [intDigs, if_pos hneg]
      · obtain ⟨c, t, hct⟩ : ∃ c t, natDigs n.natAbs = c :: t := by
          match h : natDigs n.natAbs with
          | [] => exact absurd h (natDigs_ne_nil _)
          | c :: t => exact ⟨c, t, rfl⟩
        have hcd : c.isDigit = true := natDigs_digits n.natAbs c (by rw [hct]; simp)
        obtain ⟨-, -, -, -, hbr, hbc, -, hws, -, -, -⟩ := digit_head_props hcd
        refine ⟨c, t, ?_, hws, hbr, hbc⟩
        show intDigs n = _
        rw [intDigs, if_neg hneg, hct]

theorem numDelim_arrRest (tl : JArr) (d dc : Nat) (rest : List Char) :
    numDelim (arrRest tl d dc ++ rest) = true := by
  cases tl <;> rfl

theorem numDelim_objRest (tl : JObj) (d dc : Nat) (rest : List Char) :
    numDelim (objRest tl d dc ++ rest) = true := by
  cases tl <;> rfl

/-! #### Round-trip: branch-selection helpers for the parser -/

/-- The number branch of the value parser, selected when the head is a minus
sign or a digit. -/
theorem parseJson_num_head (f : Nat) {c₀ : Char} {t : List Char}
    (hn : c₀ ≠ 'n') (ht : c₀ ≠ 't') (hf : c₀ ≠ 'f') (hq : c₀ ≠ '"')
    (hbk : c₀ ≠ '[') (hbc : c₀ ≠ '{') (hg : (c₀ = '-' || c₀.isDigit) = true) :
    parseJson (f + 1) (c₀ :: t)
      = (parseNumber (c₀ :: t)).map (fun p => (Json.num p.1, p.2)) := by
  rw [parseJson.eq_def]
  simp only []
  simp [hn, ht, hf, hq, hbk, hbc, hg]

/-- The array branch, when the element list does not open with `]`. -/
theorem parseJson_arr_go (f : Nat) {r : List Char} {c₀ : Char} {t : List Char}
    (hskip : skipWs r = c₀ :: t) (hne : c₀ ≠ ']') :
    parseJson (f + 1) ('[' :: r)
      = (match parseJson f (c₀ :: t) with
         | some (x, r3) => (parseArrRest f r3).map (fun p => (Json.arr (.cons x p.1), p.2))
         | none => none) := by
  rw [parseJson.eq_def]
  simp only []
  rw [hskip]
  simp [hne]

/-- The object branch, whose member list always opens with a key's quote. -/
theorem parseJson_obj_go (f : Nat) {r t : List Char} (hskip : skipWs r = '"' :: t) :
    parseJson (f + 1) ('{' :: r)
      = (match parseStrBody f t with
         | some (k, r3) =>
             (match skipWs r3 with
              | ':' :: r4 =>
                  (match parseJson f (skipWs r4) with
                   | some (val, r5) =>
                       (parseObjRest f r5).map (fun p => (Json.obj (.cons k val p.1), p.2))
                   | none => none)
              | _ => none)
         | none => none) := by
  rw [parseJson.eq_def]
  simp only []
  rw [hskip]
  rfl

/-! #### The codec round-trip -/

mutual

theorem rt_val : ∀ (x : Json) (d : Nat) (rest : List Char) (f : Nat),
    (prettyJson x d).length < f → numDelim rest = true →
    parseJson f (prettyJson x d ++ rest) = some (x, rest)
  | .null, d, rest, 0, hf, _ => absurd hf (by simp [prettyJson])
  | .null, d, rest, f + 1, _, _ => rfl
  | .bool true, d, rest, 0, hf, _ => absurd hf (by simp [prettyJson])
  | .bool true, d, rest, f + 1, _, _ => rfl
  | .bool false, d, rest, 0, hf, _ => absurd hf (by simp [prettyJson])
  | .bool false, d, rest, f + 1, _, _ => rfl
  | .num n, d, rest, 0, hf, _ => absurd hf (by omega)
  | .num n, d, rest, f + 1, _, hr => by
      show parseJson (f + 1) (intDigs n ++ rest) = _
      by_cases hneg : n < 0
      · have harg : intDigs n ++ rest = '-' :: (natDigs n.natAbs ++ rest) := by
          rw [intDigs, if_pos hneg, List.cons_append]
        rw [harg, parseJson_num_head f (by decide) (by decide) (by decide) (by decide)
          (by decide) (by decide) (by simp), ← harg, parseNumber_intDigs n hr]
        rfl
      · obtain ⟨c, t, hct⟩ : ∃ c t, natDigs n.natAbs = c :: t := by
          match h : natDigs n.natAbs with
          | [] => exact absurd h (natDigs_ne_nil _)
          | c :: t => exact ⟨c, t, rfl⟩
        have hcd : c.isDigit = true := natDigs_digits n.natAbs c (by rw [hct]; simp)
        obtain ⟨-, hq, hbk, hbc, -, -, -, -, hn, ht, hff⟩ := digit_head_props hcd
        have harg : intDigs n ++ rest = c :: (t ++ rest) := by
          rw [intDigs, if_neg hneg, hct, List.cons_append]
        rw [harg, parseJson_num_head f hn ht hff hq hbk hbc (by simp [hcd]),
          ← harg, parseNumber_intDigs n hr]
        rfl
  | .str s, d, rest, 0, hf, _ => absurd hf (by omega)
  | .str s, d, rest, f + 1, hf, _ => by
      have harg : prettyJson (.str s) d ++ rest = '"' :: (escStr s ++ '"' :: rest) := by
        show quoteStr s ++ rest = _
        rw [quoteStr, List.cons_append, List.append_assoc]
        rfl
      rw [harg]
      have hb : (escStr s).length < f := by
        have : (prettyJson (.str s) d).length = (escStr s).length + 2 := by
          show (quoteStr s).length = _
          rw [quoteStr]
          simp
        omega
      show (parseStrBody f (escStr s ++ '"' :: rest)).map (fun p => (Json.str p.1, p.2))
          = _
      rw [parseStrBody_escStr s f rest hb]
      rfl
  | .arr .nil, d, rest, 0, hf, _ => absurd hf (by simp [prettyJson])
  | .arr .nil, d, rest, f + 1, _, _ => by
      show parseJson (f + 1) ('[' :: ']' :: rest) = _
      rfl
  | .arr (.cons x tl), d, rest, 0, hf, _ => absurd hf (by omega)
  | .arr (.cons x tl), d, rest, f + 1, hf, _ => by
      obtain ⟨c₀, t₀, hc₀, hws₀, hbr₀, -⟩ := prettyJson_head x (d + 1)
      have hlen : (prettyJson (.arr (.cons x tl)) d).length
          = 2 + (d + 1) + (prettyJson x (d + 1)).length + (arrRest tl (d + 1) d).length := by
        show ('[' :: '\n' :: (tabs (d + 1)
            ++ (prettyJson x (d + 1) ++ arrRest tl (d + 1) d))).length = _
        simp [tabs_length]
        omega
      have harg : prettyJson (.arr (.cons x tl)) d ++ rest
          = '[' :: ('\n' :: (tabs (d + 1)
              ++ (prettyJson x (d + 1) ++ (arrRest tl (d + 1) d ++ rest)))) := by
        show ('[' :: '\n' :: (tabs (d + 1)
            ++ (prettyJson x (d + 1) ++ arrRest tl (d + 1) d))) ++ rest = _
        simp [List.append_assoc]
      have hskip : skipWs ('\n' :: (tabs (d + 1)
            ++ (prettyJson x (d + 1) ++ (arrRest tl (d + 1) d ++ rest))))
          = c₀ :: (t₀ ++ (arrRest tl (d + 1) d ++ rest)) := by
        rw [skipWs_cons_ws (by decide), skipWs_tabs, hc₀, List.cons_append,
          skipWs_cons_not hws₀]
      rw [harg, parseJson_arr_go f hskip hbr₀]
      have hx : parseJson f (c₀ :: (t₀ ++ (arrRest tl (d + 1) d ++ rest)))
          = some (x, arrRest tl (d + 1) d ++ rest) := by
        rw [show c₀ :: (t₀ ++ (arrRest tl (d + 1) d ++ rest))
            = prettyJson x (d + 1) ++ (arrRest tl (d + 1) d ++ rest) from by
          rw [hc₀, List.cons_append]]
        exact rt_val x (d + 1) _ f (by omega) (numDelim_arrRest tl (d + 1) d rest)
      rw [hx]
      show Option.map (fun p : JArr × List Char => (Json.arr (JArr.cons x p.1), p.2))
          (parseArrRest f (arrRest tl (d + 1) d ++ rest))
        = some (Json.arr (JArr.cons x tl), rest)
      rw [rt_arr tl (d + 1) d rest f (by omega)]
      rfl
  | .obj .nil, d, rest, 0, hf, _ => absurd hf (by simp [prettyJson])
  | .obj .nil, d, rest, f + 1, _, _ => by
      show parseJson (f + 1) ('{' :: '}' :: rest) = _
      rfl
  | .obj (.cons k v tl), d, rest, 0, hf, _ => absurd hf (by omega)
  | .obj (.cons k v tl), d, rest, f + 1, hf, _ => by
      have hlen : (prettyJson (.obj (.cons k v tl)) d).length
          = 2 + (d + 1) + ((escStr k).length + 2) + 2 + (prettyJson v (d + 1)).length
            + (objRest tl (d + 1) d).length := by
        show ('{' :: '\n' :: (tabs (d + 1)
            ++ (quoteStr k ++ ':' :: ' '
              :: (prettyJson v (d + 1) ++ objRest tl (d + 1) d)))).length = _
        rw [quoteStr]
        simp [tabs_length]
        omega
      have harg : prettyJson (.obj (.cons k v tl)) d ++ rest
          = '{' :: ('\n' :: (tabs (d + 1)
              ++ ('"' :: (escStr k ++ '"' :: (':' :: ' '
                :: (prettyJson v (d + 1) ++ (objRest tl (d + 1) d ++ rest))))))) := by
        show ('{' :: '\n' :: (tabs (d + 1)
            ++ (quoteStr k ++ ':' :: ' '
              :: (prettyJson v (d + 1) ++ objRest tl (d + 1) d)))) ++ rest = _
        rw [quoteStr]
        simp [List.append_assoc]
      have hskip : skipWs ('\n' :: (tabs (d + 1)
            ++ ('"' :: (escStr k ++ '"' :: (':' :: ' '
              :: (prettyJson v (d + 1) ++ (objRest tl (d + 1) d ++ rest)))))))
          = '"' :: (escStr k ++ '"' :: (':' :: ' '
              :: (prettyJson v (d + 1) ++ (objRest tl (d + 1) d ++ rest)))) := by
        rw [skipWs_cons_ws (by decide), skipWs_tabs, skipWs_cons_not (by decide)]
      rw [harg, parseJson_obj_go f hskip]
      rw [parseStrBody_escStr k f _ (by omega)]
      show (match skipWs (':' :: ' '
          :: (prettyJson v (d + 1) ++ (objRest tl (d + 1) d ++ rest))) with
        | ':' :: r4 =>
            (match parseJson f (skipWs r4) with
             | some (val, r5) =>
                 Option.map (fun p : JObj × List Char => (Json.obj (JObj.cons k val p.1), p.2))
                   (parseObjRest f r5)
             | none => none)
        | _ => none) = some (Json.obj (JObj.cons k v tl), rest)
      rw [skipWs_cons_not (by decide)]
      show (match parseJson f (skipWs (' '
          :: (prettyJson v (d + 1) ++ (objRest tl (d + 1) d ++ rest)))) with
        | some (val, r5) =>
            Option.map (fun p : JObj × List Char => (Json.obj (JObj.cons k val p.1), p.2))
              (parseObjRest f r5)
        | none => none) = some (Json.obj (JObj.cons k v tl), rest)
      obtain ⟨c₀, t₀, hc₀, hws₀, -, -⟩ := prettyJson_head v (d + 1)
      have hsk2 : skipWs (' ' :: (prettyJson v (d + 1) ++ (objRest tl (d + 1) d ++ rest)))
          = prettyJson v (d + 1) ++ (objRest tl (d + 1) d ++ rest) := by
        rw [skipWs_cons_ws (by decide), hc₀, List.cons_append, skipWs_cons_not hws₀,
          ← List.cons_append, ← hc₀]
      rw [hsk2, rt_val v (d + 1) _ f (by omega) (numDelim_objRest tl (d + 1) d rest)]
      show Option.map (fun p : JObj × List Char => (Json.obj (JObj.cons k v p.1), p.2))
          (parseObjRest f (objRest tl (d + 1) d ++ rest))
        = some (Json.obj (JObj.cons k v tl), rest)
      rw [rt_obj tl (d + 1) d rest f (by omega)]
      rfl

theorem rt_arr : ∀ (tl : JArr) (d dc : Nat) (rest : List Char) (f : Nat),
    (arrRest tl d dc).length < f →
    parseArrRest f (arrRest tl d dc ++ rest) = some (tl, rest)
  | .nil, d, dc, rest, 0, hf => absurd hf (by simp [arrRest])
  | .nil, d, dc, rest, f + 1, _ => by
      show parseArrRest (f + 1) (('\n' :: (tabs dc ++ [']'])) ++ rest) = _
      rw [parseArrRest.eq_def]
      simp only []
      rw [List.cons_append, skipWs_cons_ws (by decide), List.append_assoc, skipWs_tabs,
        List.cons_append, skipWs_cons_not (by decide)]
      rfl
  | .cons y tl, d, dc, rest, 0, hf => absurd hf (by omega)
  | .cons y tl, d, dc, rest, f + 1, hf => by
      have hlen : (arrRest (.cons y tl) d dc).length
          = 2 + d + (prettyJson y d).length + (arrRest tl d dc).length := by
        show (',' :: '\n' :: (tabs d ++ (prettyJson y d ++ arrRest tl d dc))).length = _
        simp [tabs_length]
        omega
      have harg : arrRest (.cons y tl) d dc ++ rest
          = ',' :: ('\n' :: (tabs d ++ (prettyJson y d ++ (arrRest tl d dc ++ rest)))) := by
        show (',' :: '\n' :: (tabs d ++ (prettyJson y d ++ arrRest tl d dc))) ++ rest = _
        simp [List.append_assoc]
      rw [harg, parseArrRest.eq_def]
      simp only []
      rw [skipWs_cons_not (by decide)]
      obtain ⟨c₀, t₀, hc₀, hws₀, -, -⟩ := prettyJson_head y d
      have hskip : skipWs ('\n' :: (tabs d ++ (prettyJson y d ++ (arrRest tl d dc ++ rest))))
          = prettyJson y d ++ (arrRest tl d dc ++ rest) := by
        rw [skipWs_cons_ws (by decide), skipWs_tabs, hc₀, List.cons_append,
          skipWs_cons_not hws₀, ← List.cons_append, ← hc₀]
      show (match parseJson f (skipWs ('\n' :: (tabs d
          ++ (prettyJson y d ++ (arrRest tl d dc ++ rest))))) with
        | some (x, r2) =>
            Option.map (fun p : JArr × List Char => (JArr.cons x p.1, p.2))
              (parseArrRest f r2)
        | none => none) = some (JArr.cons y tl, rest)
      rw [hskip, rt_val y d _ f (by omega) (numDelim_arrRest tl d dc rest)]
      show Option.map (fun p : JArr × List Char => (JArr.cons y p.1, p.2))
          (parseArrRest f (arrRest tl d dc ++ rest)) = some (JArr.cons y tl, rest)
      rw [rt_arr tl d dc rest f (by omega)]
      rfl

theorem rt_obj : ∀ (tl : JObj) (d dc : Nat) (rest : List Char) (f : Nat),
    (objRest tl d dc).length < f →
    parseObjRest f (objRest tl d dc ++ rest) = some (tl, rest)
  | .nil, d, dc, rest, 0, hf => absurd hf (by simp [objRest])
  | .nil, d, dc, rest, f + 1, _ => by
      show parseObjRest (f + 1) (('\n' :: (tabs dc ++ ['}'])) ++ rest) = _
      rw [parseObjRest.eq_def]
      simp only []
      rw [List.cons_append, skipWs_cons_ws (by decide), List.append_assoc, skipWs_tabs,
        List.cons_append, skipWs_cons_not (by decide)]
      rfl
  | .cons k v tl, d, dc, rest, 0, hf => absurd hf (by omega)
  | .cons k v tl, d, dc, rest, f + 1, hf => by
      have hlen : (objRest (.cons k v tl) d dc).length
          = 2 + d + ((escStr k).length + 2) + 2 + (prettyJson v d).length
            + (objRest tl d dc).length := by
        show (',' :: '\n' :: (tabs d
            ++ (quoteStr k ++ ':' :: ' ' :: (prettyJson v d ++ objRest tl d dc)))).length
          = _
        rw [quoteStr]
        simp [tabs_length]
        omega
      have harg : objRest (.cons k v tl) d dc ++ rest
          = ',' :: ('\n' :: (tabs d ++ ('"' :: (escStr k ++ '"' :: (':' :: ' '
              :: (prettyJson v d ++ (objRest tl d dc ++ rest))))))) := by
        show (',' :: '\n' :: (tabs d
            ++ (quoteStr k ++ ':' :: ' ' :: (prettyJson v d ++ objRest tl d dc)))) ++ rest
          = _
        rw [quoteStr]
        simp [List.append_assoc]
      rw [harg, parseObjRest.eq_def]
      simp only []
      rw [skipWs_cons_not (by decide)]
      show (match skipWs ('\n' :: (tabs d ++ ('"' :: (escStr k ++ '"' :: (':' :: ' '
          :: (prettyJson v d ++ (objRest tl d dc ++ rest))))))) with
        | '"' :: r1 =>
            (match parseStrBody f r1 with
             | some (k2, r2) =>
                 (match skipWs r2 with
                  | ':' :: r3 =>
                      (match parseJson f (skipWs r3) with
                       | some (val, r4) =>
                           Option.map
                             (fun p : JObj × List Char => (JObj.cons k2 val p.1, p.2))
                             (parseObjRest f r4)
                       | none => none)
                  | _ => none)
             | none => none)
        | _ => none) = some (JObj.cons k v tl, rest)
      rw [show skipWs ('\n' :: (tabs d ++ ('"' :: (escStr k ++ '"' :: (':' :: ' '
          :: (prettyJson v d ++ (objRest tl d dc ++ rest)))))))
          = '"' :: (escStr k ++ '"' :: (':' :: ' '
            :: (prettyJson v d ++ (objRest tl d dc ++ rest)))) from by
        rw [skipWs_cons_ws (by decide), skipWs_tabs, skipWs_cons_not (by decide)]]
      show (match parseStrBody f (escStr k ++ '"' :: (':' :: ' '
          :: (prettyJson v d ++ (objRest tl d dc ++ rest)))) with
        | some (k2, r2) =>
            (match skipWs r2 with
             | ':' :: r3 =>
                 (match parseJson f (skipWs r3) with
                  | some (val, r4) =>
                      Option.map (fun p : JObj × List Char => (JObj.cons k2 val p.1, p.2))
                        (parseObjRest f r4)
                  | none => none)
             | _ => none)
        | none => none) = some (JObj.cons k v tl, rest)
      rw [parseStrBody_escStr k f _ (by omega)]
      show (match skipWs (':' :: ' ' :: (prettyJson v d ++ (objRest tl d dc ++ rest))) with
        | ':' :: r3 =>
            (match parseJson f (skipWs r3) with
             | some (val, r4) =>
                 Option.map (fun p : JObj × List Char => (JObj.cons k val p.1, p.2))
                   (parseObjRest f r4)
             | none => none)
        | _ => none) = some (JObj.cons k v tl, rest)
      rw [skipWs_cons_not (by decide)]
      show (match parseJson f (skipWs (' '
          :: (prettyJson v d ++ (objRest tl d dc ++ rest)))) with
        | some (val, r4) =>
            Option.map (fun p : JObj × List Char => (JObj.cons k val p.1, p.2))
              (parseObjRest f r4)
        | none => none) = some (JObj.cons k v tl, rest)
      obtain ⟨c₀, t₀, hc₀, hws₀, -, -⟩ := prettyJson_head v d
      have hsk2 : skipWs (' ' :: (prettyJson v d ++ (objRest tl d dc ++ rest)))
          = prettyJson v d ++ (objRest tl d dc ++ rest) := by
        rw [skipWs_cons_ws (by decide), hc₀, List.cons_append, skipWs_cons_not hws₀,
          ← List.cons_append, ← hc₀]
      rw [hsk2, rt_val v d _ f (by omega) (numDelim_objRest tl d dc rest)]
      show Option.map (fun p : JObj × List Char => (JObj.cons k v p.1, p.2))
          (parseObjRest f (objRest tl d dc ++ rest)) = some (JObj.cons k v tl, rest)
      rw [rt_obj tl d dc rest f (by omega)]
      rfl

end

/-- The document round-trip: the exact bytes `update-version.ts` writes parse
back to the value they were printed from. -/
theorem parseText_jsonOut (j : Json) : parseText (jsonOut j).toList = some j := by
  show parseText (stringifyTabs j ++ ['\n']) = some j
  rw [parseText]
  obtain ⟨c, t, hct, hws, -, -⟩ := prettyJson_head j 0
  have hskip : skipWs (stringifyTabs j ++ ['\n']) = stringifyTabs j ++ ['\n'] := by
    show skipWs (prettyJson j 0 ++ ['\n']) = prettyJson j 0 ++ ['\n']
    rw [hct, List.cons_append, skipWs_cons_not hws]
  rw [hskip]
  have hrt := rt_val j 0 ['\n'] ((stringifyTabs j ++ ['\n']).length + 1)
    (by
      show (prettyJson j 0).length < (prettyJson j 0 ++ ['\n']).length + 1
      simp only [List.length_append, List.length_cons, List.length_nil]
      omega)
    (by decide)
  rw [show (stringifyTabs j ++ ['\n']).length + 1
      = (prettyJson j 0 ++ ['\n']).length + 1 from rfl] at hrt
  show (match parseJson ((prettyJson j 0 ++ ['\n']).length + 1)
      (prettyJson j 0 ++ ['\n']) with
    | some (j, r) => if skipWs r = [] then some j else none
    | none => none) = some j
  rw [hrt]
  show (if skipWs ['\n'] = [] then some j else none) = some j
  rw [if_pos (by decide)]

/-- A manifest text in the propagator's own output format whose version field
already carries the target version. -/
def Stable (version t : String) : Prop :=
  ∃ j, t = jsonOut j ∧ setVersion j version.toList = j

theorem setKey_cons (k2 : List Char) (v2 : Json) (tl : JObj) (k : List Char) (v : Json) :
    setKey (.cons k2 v2 tl) k v
      = if k2 = k then .cons k v tl else .cons k2 v2 (setKey tl k v) := rfl

theorem getKey_cons (k2 : List Char) (v2 : Json) (tl : JObj) (k : List Char) :
    getKey (.cons k2 v2 tl) k = if k2 = k then some v2 else getKey tl k := rfl

theorem setKey_setKey : ∀ (fs : JObj) (k : List Char) (v : Json),
    setKey (setKey fs k v) k v = setKey fs k v
  | .nil, k, v => by
      show setKey (.cons k v .nil) k v = .cons k v .nil
      rw [setKey_cons, if_pos rfl]
  | .cons k2 v2 tl, k, v => by
      by_cases h : k2 = k
      · rw [setKey_cons k2 v2 tl, if_pos h, setKey_cons k v tl, if_pos rfl]
      · rw [setKey_cons k2 v2 tl, if_neg h, setKey_cons k2 v2 (setKey tl k v), if_neg h,
          setKey_setKey tl k v]

theorem setVersion_idem (j : Json) (ver : List Char) :
    setVersion (setVersion j ver) ver = setVersion j ver := by
  cases j with
  | obj fs =>
      show Json.obj (setKey (setKey fs "version".toList (.str ver)) "version".toList (.str ver))
        = Json.obj (setKey fs "version".toList (.str ver))
      rw [setKey_setKey]
  | null => rfl
  | bool b => rfl
  | num n => rfl
  | str s => rfl
  | arr xs => rfl

/-- Whatever the propagator writes is stable. -/
theorem update_writes_stable (version : String) {text t2 : String}
    (h : updateManifestText version text = some t2) : Stable version t2 := by
  unfold updateManifestText at h
  split at h
  · next j hj =>
      rcases Option.some.inj h with rfl
      exact ⟨setVersion j version.toList, rfl, setVersion_idem j version.toList⟩
  · cases h

/-- Rewriting a stable manifest reproduces it byte for byte. -/
theorem stable_update {version t : String} (h : Stable version t) :
    updateManifestText version t = some t := by
  obtain ⟨j, rfl, hfix⟩ := h
  unfold updateManifestText
  rw [parseText_jsonOut]
  show some (jsonOut (setVersion j version.toList)) = some (jsonOut j)
  rw [hfix]

theorem getKey_setKey_ne : ∀ (fs : JObj) {k key : List Char}, key ≠ k → ∀ (v : Json),
    getKey (setKey fs k v) key = getKey fs key
  | .nil, k, key, hne, v => by
      show getKey (.cons k v .nil) key = getKey .nil key
      rw [getKey_cons, if_neg (fun he => hne he.symm)]
  | .cons k2 v2 tl, k, key, hne, v => by
      by_cases h : k2 = k
      · rw [setKey_cons, if_pos h, getKey_cons, getKey_cons,
          if_neg (fun he => hne he.symm), h, if_neg (fun he => hne he.symm)]
      · rw [setKey_cons, if_neg h, getKey_cons, getKey_cons,
          getKey_setKey_ne tl hne v]

theorem getKey_setKey_self : ∀ (fs : JObj) (k : List Char) (v : Json),
    getKey (setKey fs k v) k = some v
  | .nil, k, v => by
      show getKey (.cons k v .nil) k = some v
      rw [getKey_cons, if_pos rfl]
  | .cons k2 v2 tl, k, v => by
      by_cases h : k2 = k
      · rw [setKey_cons, if_pos h, getKey_cons, if_pos rfl]
      · rw [setKey_cons, if_neg h, getKey_cons, if_neg h, getKey_setKey_self tl k v]

theorem lookupFs_setFs :
    ∀ (fs : List (String × String)) (d t x : String),
      lookupFs (setFs fs d t) x = if x = d then some t else lookupFs fs x
  | [], d, t, x => by
      show (if d = x then some t else lookupFs [] x)
        = if x = d then some t else lookupFs [] x
      by_cases h : x = d
      · rw [if_pos h.symm, if_pos h]
      · rw [if_neg (fun he => h he.symm), if_neg h]
  | (d2, t2) :: rest, d, t, x => by
      by_cases hdd : d2 = d
      · rw [setFs, if_pos hdd]
        show (if d = x then some t else lookupFs rest x) = _
        by_cases hxd : x = d
        · rw [if_pos hxd.symm, if_pos hxd]
        · rw [if_neg (fun he => hxd he.symm), if_neg hxd]
          show lookupFs rest x = if d2 = x then some t2 else lookupFs rest x
          rw [if_neg (by rw [hdd]; exact fun he => hxd he.symm)]
      · rw [setFs, if_neg hdd]
        show (if d2 = x then some t2 else lookupFs (setFs rest d t) x) = _
        by_cases hdx : d2 = x
        · rw [if_pos hdx, if_neg (fun he => hdd (hdx.trans he))]
          show some t2 = if d2 = x then some t2 else lookupFs rest x
          rw [if_pos hdx]
        · rw [if_neg hdx, lookupFs_setFs rest d t x]
          by_cases hxd : x = d
          · rw [if_pos hxd, if_pos hxd]
          · rw [if_neg hxd, if_neg hxd]
            show lookupFs rest x = if d2 = x then some t2 else lookupFs rest x
            rw [if_neg hdx]

theorem setFs_self :
    ∀ {fs : List (String × String)} {d t : String},
      lookupFs fs d = some t → setFs fs d t = fs
  | [], d, t, h => by cases h
  | (d2, t2) :: rest, d, t, h => by
      by_cases hdd : d2 = d
      · have ht : t2 = t := by
          have h2 : (if d2 = d then some t2 else lookupFs rest d) = some t := h
          rw [if_pos hdd] at h2
          exact Option.some.inj h2
        rw [setFs, if_pos hdd, ← hdd, ← ht]
      · have h2 : (if d2 = d then some t2 else lookupFs rest d) = some t := h
        rw [if_neg hdd] at h2
        rw [setFs, if_neg hdd, setFs_self h2]

/-! #### Facts about the rewrite loop -/

theorem runUV_nil (reg : List (Option String)) (v : String) (st : UVState) :
    runUV reg v [] st = .ok { st with logs := st.logs ++ [.summary st.updated] } := rfl

theorem runUV_cons (reg : List (Option String)) (v : String) (dir : String)
    (rest : List String) (st : UVState) :
    runUV reg v (dir :: rest) st
      = if dir ∈ localTemplates reg then runUV reg v rest st
        else
          match lookupFs st.fs dir with
          | none => .error st
          | some text =>
              match updateManifestText v text with
              | none => .error st
              | some newText =>
                  runUV reg v rest
                    { fs := setFs st.fs dir newText, updated := st.updated + 1,
                      logs := st.logs ++ [.updatedPkg dir] } := rfl

/-- The state a run ends in, whether it completed or crashed. -/
def runState : Except UVState UVState → UVState
  | .ok s => s
  | .error s => s

/-- Frame: a directory that is in the template-exclusion set, or that is not
in the processed list, keeps its manifest byte for byte. -/
theorem runUV_frame (reg : List (Option String)) (v : String) :
    ∀ (dirs : List String) (st : UVState) (x : String),
      (x ∈ localTemplates reg ∨ x ∉ dirs) →
      lookupFs (runState (runUV reg v dirs st)).fs x = lookupFs st.fs x
  | [], st, x, _ => rfl
  | dir :: rest, st, x, hx => by
      have hxrest : x ∈ localTemplates reg ∨ x ∉ rest := by
        rcases hx with hx | hx
        · exact Or.inl hx
        · exact Or.inr (fun hmem => hx (List.mem_cons_of_mem dir hmem))
      rw [runUV_cons]
      by_cases hm : dir ∈ localTemplates reg
      · rw [if_pos hm]
        exact runUV_frame reg v rest st x hxrest
      · rw [if_neg hm]
        have hxdir : x ≠ dir := by
          rcases hx with hx | hx
          · exact fun he => hm (he ▸ hx)
          · exact fun he => hx (he ▸ List.mem_cons_self dir rest)
        cases hlk : lookupFs st.fs dir with
        | none => rfl
        | some text =>
            show lookupFs (runState (match updateManifestText v text with
                | none => Except.error st
                | some newText =>
                    runUV reg v rest
                      { fs := setFs st.fs dir newText, updated := st.updated + 1,
                        logs := st.logs ++ [LogLine.updatedPkg dir] })).fs x
              = lookupFs st.fs x
            cases hup : updateManifestText v text with
            | none => rfl
            | some newText =>
                show lookupFs (runState (runUV reg v rest
                    { fs := setFs st.fs dir newText, updated := st.updated + 1,
                      logs := st.logs ++ [LogLine.updatedPkg dir] })).fs x
                  = lookupFs st.fs x
                rw [runUV_frame reg v rest
                  ⟨setFs st.fs dir newText, st.updated + 1,
                    st.logs ++ [LogLine.updatedPkg dir]⟩ x hxrest]
                show lookupFs (setFs st.fs dir newText) x = lookupFs st.fs x
                rw [lookupFs_setFs, if_neg hxdir]

/-- Every manifest is either untouched by the run or left in stable form. -/
theorem runUV_stable (reg : List (Option String)) (v : String) :
    ∀ (dirs : List String) (st : UVState) (x : String),
      lookupFs (runState (runUV reg v dirs st)).fs x = lookupFs st.fs x
      ∨ ∃ t, lookupFs (runState (runUV reg v dirs st)).fs x = some t ∧ Stable v t
  | [], st, x => Or.inl rfl
  | dir :: rest, st, x => by
      rw [runUV_cons]
      by_cases hm : dir ∈ localTemplates reg
      · rw [if_pos hm]
        exact runUV_stable reg v rest st x
      · rw [if_neg hm]
        cases hlk : lookupFs st.fs dir with
        | none => exact Or.inl rfl
        | some text =>
            show lookupFs (runState (match updateManifestText v text with
                | none => Except.error st
                | some newText =>
                    runUV reg v rest
                      { fs := setFs st.fs dir newText, updated := st.updated + 1,
                        logs := st.logs ++ [LogLine.updatedPkg dir] })).fs x
                = lookupFs st.fs x
              ∨ ∃ t, lookupFs (runState (match updateManifestText v text with
                | none => Except.error st
                | some newText =>
                    runUV reg v rest
                      { fs := setFs st.fs dir newText, updated := st.updated + 1,
                        logs := st.logs ++ [LogLine.updatedPkg dir] })).fs x
                  = some t ∧ Stable v t
            cases hup : updateManifestText v text with
            | none => exact Or.inl rfl
            | some newText =>
                rcases runUV_stable reg v rest
                    ⟨setFs st.fs dir newText, st.updated + 1,
                      st.logs ++ [LogLine.updatedPkg dir]⟩ x with h | h
                · by_cases hxd : x = dir
                  · refine Or.inr ⟨newText, ?_, update_writes_stable v hup⟩
                    show lookupFs (runState (runUV reg v rest
                        { fs := setFs st.fs dir newText, updated := st.updated + 1,
                          logs := st.logs ++ [LogLine.updatedPkg dir] })).fs x
                      = some newText
                    rw [h]
                    show lookupFs (setFs st.fs dir newText) x = some newText
                    rw [lookupFs_setFs, if_pos hxd]
                  · refine Or.inl ?_
                    show lookupFs (runState (runUV reg v rest
                        { fs := setFs st.fs dir newText, updated := st.updated + 1,
                          logs := st.logs ++ [LogLine.updatedPkg dir] })).fs x
                      = lookupFs st.fs x
                    rw [h]
                    show lookupFs (setFs st.fs dir newText) x = lookupFs st.fs x
                    rw [lookupFs_setFs, if_neg hxd]
                · exact Or.inr h

/-- After a completed run, every processed non-template directory holds a
stable manifest. -/
theorem runUV_post (reg : List (Option String)) (v : String) :
    ∀ (dirs : List String) (st st2 : UVState),
      runUV reg v dirs st = .ok st2 →
      ∀ d ∈ dirs, d ∉ localTemplates reg →
        ∃ t, lookupFs st2.fs d = some t ∧ Stable v t
  | [], st, st2, _, d, hd, _ => absurd hd (List.not_mem_nil d)
  | dir :: rest, st, st2, h, d, hd, hnt => by
      rw [runUV_cons] at h
      by_cases hm : dir ∈ localTemplates reg
      · rw [if_pos hm] at h
        rcases List.mem_cons.mp hd with rfl | hd2
        · exact absurd hm hnt
        · exact runUV_post reg v rest st st2 h d hd2 hnt
      · rw [if_neg hm] at h
        cases hlk : lookupFs st.fs dir with
        | none => rw [hlk] at h; cases h
        | some text =>
            rw [hlk] at h
            have h2 : (match updateManifestText v text with
                | none => Except.error st
                | some newText =>
                    runUV reg v rest
                      { fs := setFs st.fs dir newText, updated := st.updated + 1,
                        logs := st.logs ++ [LogLine.updatedPkg dir] })
                = Except.ok st2 := h
            cases hup : updateManifestText v text with
            | none => rw [hup] at h2; cases h2
            | some newText =>
                rw [hup] at h2
                have h3 : runUV reg v rest
                    { fs := setFs st.fs dir newText, updated := st.updated + 1,
                      logs := st.logs ++ [LogLine.updatedPkg dir] }
                    = Except.ok st2 := h2
                rcases List.mem_cons.mp hd with rfl | hd2
                · have hs := runUV_stable reg v rest
                    ⟨setFs st.fs d newText, st.updated + 1,
                      st.logs ++ [LogLine.updatedPkg d]⟩ d
                  rw [h3] at hs
                  rcases hs with h1 | h1
                  · refine ⟨newText, ?_, update_writes_stable v hup⟩
                    have h1s : lookupFs st2.fs d
                        = lookupFs (setFs st.fs d newText) d := h1
                    rw [h1s, lookupFs_setFs, if_pos rfl]
                  · exact h1
                · exact runUV_post reg v rest _ st2 h3 d hd2 hnt

/-- On a filesystem whose processed non-template manifests are all stable,
the run succeeds and changes nothing. -/
theorem runUV_nop (reg : List (Option String)) (v : String) :
    ∀ (dirs : List String) (st : UVState),
      (∀ d ∈ dirs, d ∉ localTemplates reg →
        ∃ t, lookupFs st.fs d = some t ∧ Stable v t) →
      ∃ st2, runUV reg v dirs st = .ok st2 ∧ st2.fs = st.fs
  | [], st, _ => ⟨_, rfl, rfl⟩
  | dir :: rest, st, hstab => by
      rw [runUV_cons]
      by_cases hm : dir ∈ localTemplates reg
      · rw [if_pos hm]
        exact runUV_nop reg v rest st
          (fun d hd hnt => hstab d (List.mem_cons_of_mem dir hd) hnt)
      · rw [if_neg hm]
        obtain ⟨t, hlk, hst⟩ := hstab dir (List.mem_cons_self dir rest) hm
        rw [hlk]
        show ∃ st2, (match updateManifestText v t with
            | none => Except.error st
            | some newText =>
                runUV reg v rest
                  { fs := setFs st.fs dir newText, updated := st.updated + 1,
                    logs := st.logs ++ [LogLine.updatedPkg dir] }) = Except.ok st2
          ∧ st2.fs = st.fs
        rw [stable_update hst]
        show ∃ st2, runUV reg v rest
            { fs := setFs st.fs dir t, updated := st.updated + 1,
              logs := st.logs ++ [LogLine.updatedPkg dir] } = Except.ok st2
          ∧ st2.fs = st.fs
        have hfs : setFs st.fs dir t = st.fs := setFs_self hlk
        obtain ⟨st2, hrun, hfs2⟩ := runUV_nop reg v rest
          ⟨setFs st.fs dir t, st.updated + 1, st.logs ++ [LogLine.updatedPkg dir]⟩
          (by
            intro d hd hnt
            show ∃ t2, lookupFs (setFs st.fs dir t) d = some t2 ∧ Stable v t2
            rw [hfs]
            exact hstab d (List.mem_cons_of_mem dir hd) hnt)
        refine ⟨st2, hrun, ?_⟩
        have hfs2s : st2.fs = setFs st.fs dir t := hfs2
        rw [hfs2s, hfs]

/-- Console invariant of the loop: while running, no count line has been
printed and every printed line is a per-file line; a crash preserves that,
while only a completed run appends the count line, last. -/
theorem runUV_logs (reg : List (Option String)) (v : String) :
    ∀ (dirs : List String) (st : UVState),
      (∀ n, LogLine.summary n ∉ st.logs) → st.logs.length = st.updated →
      (∀ l ∈ st.logs, ∃ dr, l = LogLine.updatedPkg dr) →
      (∀ st2, runUV reg v dirs st = .error st2 →
        (∀ n, LogLine.summary n ∉ st2.logs) ∧ st2.logs.length = st2.updated ∧
        (∀ l ∈ st2.logs, ∃ dr, l = LogLine.updatedPkg dr)) ∧
      (∀ st2, runUV reg v dirs st = .ok st2 →
        st2.logs.getLast? = some (.summary st2.updated))
  | [], st, hns, hlen, hupd => by
      constructor
      · intro st2 h
        cases h
      · intro st2 h
        have h2 : ({ st with logs := st.logs ++ [.summary st.updated] } : UVState) = st2 :=
          Except.ok.inj h
        rw [← h2]
        show (st.logs ++ [LogLine.summary st.updated]).getLast? = some (.summary st.updated)
        rw [List.getLast?_concat]
  | dir :: rest, st, hns, hlen, hupd => by
      rw [runUV_cons]
      by_cases hm : dir ∈ localTemplates reg
      · rw [if_pos hm]
        exact runUV_logs reg v rest st hns hlen hupd
      · rw [if_neg hm]
        cases hlk : lookupFs st.fs dir with
        | none =>
            constructor
            · intro st2 h
              have h2 : st = st2 := Except.error.inj h
              rw [← h2]
              exact ⟨hns, hlen, hupd⟩
            · intro st2 h
              cases h
        | some text =>
            show (∀ st2, (match updateManifestText v text with
                | none => Except.error st
                | some newText =>
                    runUV reg v rest
                      { fs := setFs st.fs dir newText, updated := st.updated + 1,
                        logs := st.logs ++ [LogLine.updatedPkg dir] }) = .error st2 → _) ∧
              (∀ st2, (match updateManifestText v text with
                | none => Except.error st
                | some newText =>
                    runUV reg v rest
                      { fs := setFs st.fs dir newText, updated := st.updated + 1,
                        logs := st.logs ++ [LogLine.updatedPkg dir] }) = .ok st2 → _)
            cases hup : updateManifestText v text with
            | none =>
                constructor
                · intro st2 h
                  have h2 : st = st2 := Except.error.inj h
                  rw [← h2]
                  exact ⟨hns, hlen, hupd⟩
                · intro st2 h
                  cases h
            | some newText =>
                refine runUV_logs reg v rest
                  ⟨setFs st.fs dir newText, st.updated + 1,
                    st.logs ++ [LogLine.updatedPkg dir]⟩ ?_ ?_ ?_
                · intro n hmem
                  rcases List.mem_append.mp hmem with hmem | hmem
                  · exact hns n hmem
                  · rw [List.mem_singleton] at hmem
                    cases hmem
                · show (st.logs ++ [LogLine.updatedPkg dir]).length = st.updated + 1
                  rw [List.length_append, hlen]
                  rfl
                · intro l hmem
                  rcases List.mem_append.mp hmem with hmem | hmem
                  · exact hupd l hmem
                  · rw [List.mem_singleton] at hmem
                    exact ⟨dir, hmem⟩

/-- Claim C8: running the version propagator twice in a row with the same
version leaves every manifest byte-identical after the second run: the second
run parses each already-updated manifest back to the value it prints, writes
the same version into it again, and re-serializes to the very same bytes. -/
theorem C8_idempotent_propagation :
    ∀ (registry : List (Option String)) (version : String) (dirs : List String)
      (fs₀ : List (String × String)) (st1 : UVState),
      runUV registry version dirs ⟨fs₀, 0, []⟩ = .ok st1 →
      ∃ st2, runUV registry version dirs ⟨st1.fs, 0, []⟩ = .ok st2 ∧ st2.fs = st1.fs := by
  intro registry version dirs fs₀ st1 h
  exact runUV_nop registry version dirs ⟨st1.fs, 0, []⟩
    (fun d hd hnt => runUV_post registry version dirs ⟨fs₀, 0, []⟩ st1 h d hd hnt)

/-- Witness for C8: a one-package run at `4.0.500`; the second run succeeds
and reproduces the first run's bytes. -/
theorem C8_witness :
    (runState (runUV [] "4.0.500" ["alpha"]
      ⟨[("alpha", "\x7b\n\t\"version\": \"4.0.500\"\n\x7d\n")], 0, []⟩)).fs
      = [("alpha", "\x7b\n\t\"version\": \"4.0.500\"\n\x7d\n")] := by
  obtain ⟨st2, hrun, hfs⟩ := C8_idempotent_propagation [] "4.0.500" ["alpha"]
    [("alpha", "\x7b\"version\": \"1.0.0\"\x7d")]
    ⟨[("alpha", "\x7b\n\t\"version\": \"4.0.500\"\n\x7d\n")], 1,
      [.updatedPkg "alpha", .summary 1]⟩ rfl
  rw [hrun]
  exact hfs

/-- Claim C9: a package identifier in the template-exclusion set never has
its manifest rewritten by the propagator, whatever the version argument and
whatever else is processed; a non-template manifest is rewritten to exactly
its parsed value with the version property assigned — every key other than
`version` keeps its value, and `version` maps to the version string. -/
theorem C9_templates_untouched :
    (∀ (registry : List (Option String)) (version : String) (dirs : List String)
       (st : UVState) (d : String), d ∈ localTemplates registry →
       lookupFs (runState (runUV registry version dirs st)).fs d = lookupFs st.fs d) ∧
    (∀ (version text : String) (j : Json), parseText text.toList = some j →
       updateManifestText version text = some (jsonOut (setVersion j version.toList))) ∧
    (∀ (fs : JObj) (version : List Char) (key : List Char), key ≠ "version".toList →
       getKey (setKey fs "version".toList (.str version)) key = getKey fs key) ∧
    (∀ (fs : JObj) (version : List Char),
       getKey (setKey fs "version".toList (.str version)) "version".toList
         = some (.str version)) := by
  refine ⟨?_, ?_, ?_, ?_⟩
  · intro registry version dirs st d hd
    exact runUV_frame registry version dirs st d (Or.inl hd)
  · intro version text j hj
    unfold updateManifestText
    rw [hj]
  · intro fs version key hne
    exact getKey_setKey_ne fs hne (.str version)
  · intro fs version
    exact getKey_setKey_self fs "version".toList (.str version)

/-- Witness for C9: with `tpl` registered as a template, a run over `tpl`
alone leaves its manifest entry untouched. -/
theorem C9_witness :
    lookupFs (runState (runUV [some "tpl"] "9.9.9" ["tpl"]
      ⟨[("tpl", "anything")], 0, []⟩)).fs "tpl"
      = lookupFs [("tpl", "anything")] "tpl" :=
  C9_templates_untouched.1 [some "tpl"] "9.9.9" ["tpl"]
    ⟨[("tpl", "anything")], 0, []⟩ "tpl" (by decide)

/-- Claim C10 as stated is refuted: with three manifests of which the second
is malformed, the run crashes after updating the first; the console holds
only the one per-file line — the count of successful updates (`1`) is never
reported, because the count line prints only after the whole loop. -/
theorem C10_counterexample :
    runUV [] "4.0.500" ["alpha", "beta", "gamma"]
      ⟨[("alpha", "\x7b\"version\": \"1.0.0\"\x7d"), ("beta", "nope"),
        ("gamma", "\x7b\x7d")], 0, []⟩
      = .error ⟨[("alpha", "\x7b\n\t\"version\": \"4.0.500\"\n\x7d\n"),
          ("beta", "nope"), ("gamma", "\x7b\x7d")], 1, [.updatedPkg "alpha"]⟩
    ∧ LogLine.summary 1 ∉ [LogLine.updatedPkg "alpha"] := by
  exact ⟨rfl, by decide⟩

/-- Claim C10 (amended): a partial-propagation failure halts the run fatally,
but the count of successful updates is not reported — the console then holds
exactly the per-file success lines (one per update performed, so their number
is the count), and the count summary line appears only at the end of a fully
successful run. -/
theorem C10_partial_failure_report :
    ∀ (registry : List (Option String)) (version : String) (dirs : List String)
      (fs₀ : List (String × String)),
      (∀ st2, runUV registry version dirs ⟨fs₀, 0, []⟩ = .error st2 →
        (∀ n, LogLine.summary n ∉ st2.logs) ∧ st2.logs.length = st2.updated ∧
        (∀ l ∈ st2.logs, ∃ dr, l = LogLine.updatedPkg dr)) ∧
      (∀ st2, runUV registry version dirs ⟨fs₀, 0, []⟩ = .ok st2 →
        st2.logs.getLast? = some (.summary st2.updated)) := by
  intro registry version dirs fs₀
  exact runUV_logs registry version dirs ⟨fs₀, 0, []⟩
    (fun n h => absurd h (List.not_mem_nil _)) rfl
    (fun l h => absurd h (List.not_mem_nil _))

/-- Witness for C10 (amended), at the counterexample's inputs: the crash
state reports no count, and the successful single-file run ends with the
count line. -/
theorem C10_witness :
    LogLine.summary 1
      ∉ (⟨[("alpha", "\x7b\n\t\"version\": \"4.0.500\"\n\x7d\n"),
          ("beta", "nope"), ("gamma", "\x7b\x7d")], 1,
          [LogLine.updatedPkg "alpha"]⟩ : UVState).logs :=
  ((C10_partial_failure_report [] "4.0.500" ["alpha", "beta", "gamma"]
      [("alpha", "\x7b\"version\": \"1.0.0\"\x7d"), ("beta", "nope"),
        ("gamma", "\x7b\x7d")]).1
    ⟨[("alpha", "\x7b\n\t\"version\": \"4.0.500\"\n\x7d\n"),
        ("beta", "nope"), ("gamma", "\x7b\x7d")], 1, [LogLine.updatedPkg "alpha"]⟩
    rfl).1 1

end Publish
